import Mathlib

/-!
# Verification of the estree-analyzer type lattice, analyzer, scope, walker and
# token buffer

This development gives a shallow embedding of the JavaScript sources of the
estree-analyzer repository (`src/types.js`, `src/analyze.mjs`, the scope class,
the AST walker and the output token buffer) and proves or refutes the frozen
claims about them.

Modelling conventions:

* A JavaScript `Type` value (`src/types.js`) is either a bare kind string, an
  array of types (union shorthand), or a canonical type object with a `kind`
  and optional `returns`/`params`/`elements`/`anyOf` fields.  This is the
  inductive `JType` below.  A function parameter object (`Parameter`) is a
  pair of an optional `name` and an optional `type`.
* A JavaScript value that may be `undefined` is modelled as an `Option`; a
  property access that yields `undefined` on strings (for example
  `'array'.elements`) is modelled by accessor functions returning `none`.
* JavaScript `===` on the values manipulated here is modelled as structural
  equality `jbeq`.  For strings this is exact; for objects it corresponds to
  runs in which structurally equal objects are shared references.
* Code that throws is modelled with `Except`; code that never returns
  (the `isAssignable` recursion through `getUnionTypes` of a union-kind
  object lacking the required `anyOf` field overflows the JS stack) is
  modelled by a `false` result on that—ill-formed—input, marked in comments.
-/

set_option maxHeartbeats 1000000

namespace Estree

/-- Surface representation of a JavaScript `Type` from `src/types.js`:
a bare kind string, an array of types (union shorthand), or a canonical
type object `{kind, returns?, params?, elements?, anyOf?}`.  A parameter
object `{name?, type?}` is a pair of options. -/
inductive JType where
  | str (k : String)
  | arr (ts : List JType)
  | obj (kind : String) (returns : Option JType)
        (params : Option (List (Option String × Option JType)))
        (elements : Option JType) (anyOf : Option (List JType))

/-- A function `Parameter` object: optional `name`, optional `type`. -/
abbrev JParam := Option String × Option JType

def JParam.pname (p : JParam) : Option String := p.1

def JParam.ptype (p : JParam) : Option JType := p.2

mutual

/-- Structural equality of types, modelling JavaScript `===` on shared or
string-valued type representations. -/
def jbeq : JType → JType → Bool
  | .str k, .str k' => k == k'
  | .arr ts, .arr ts' => jbeqL ts ts'
  | .obj k r p e u, .obj k' r' p' e' u' =>
      k == k' && jbeqO r r' && jbeqPO p p' && jbeqO e e' && jbeqLO u u'
  | _, _ => false

def jbeqO : Option JType → Option JType → Bool
  | none, none => true
  | some a, some b => jbeq a b
  | _, _ => false

def jbeqL : List JType → List JType → Bool
  | [], [] => true
  | a :: as, b :: bs => jbeq a b && jbeqL as bs
  | _, _ => false

def jbeqLO : Option (List JType) → Option (List JType) → Bool
  | none, none => true
  | some a, some b => jbeqL a b
  | _, _ => false

def jbeqP : JParam → JParam → Bool
  | (n, t), (n', t') => n == n' && jbeqO t t'

def jbeqPL : List JParam → List JParam → Bool
  | [], [] => true
  | a :: as, b :: bs => jbeqP a b && jbeqPL as bs
  | _, _ => false

def jbeqPO : Option (List JParam) → Option (List JParam) → Bool
  | none, none => true
  | some a, some b => jbeqPL a b
  | _, _ => false

end

mutual

theorem jbeq_iff : ∀ a b : JType, jbeq a b = true ↔ a = b
  | .str _, .str _ => by simp [jbeq]
  | .str _, .arr _ => by simp [jbeq]
  | .str _, .obj _ _ _ _ _ => by simp [jbeq]
  | .arr _, .str _ => by simp [jbeq]
  | .arr ts, .arr ts' => by simp [jbeq, jbeqL_iff ts ts']
  | .arr _, .obj _ _ _ _ _ => by simp [jbeq]
  | .obj _ _ _ _ _, .str _ => by simp [jbeq]
  | .obj _ _ _ _ _, .arr _ => by simp [jbeq]
  | .obj k r p e u, .obj k' r' p' e' u' => by
      simp [jbeq, jbeqO_iff r r', jbeqPO_iff p p', jbeqO_iff e e', jbeqLO_iff u u',
        and_assoc]

theorem jbeqO_iff : ∀ a b : Option JType, jbeqO a b = true ↔ a = b
  | none, none => by simp [jbeqO]
  | none, some _ => by simp [jbeqO]
  | some _, none => by simp [jbeqO]
  | some a, some b => by simp [jbeqO, jbeq_iff a b]

theorem jbeqL_iff : ∀ a b : List JType, jbeqL a b = true ↔ a = b
  | [], [] => by simp [jbeqL]
  | [], _ :: _ => by simp [jbeqL]
  | _ :: _, [] => by simp [jbeqL]
  | a :: as, b :: bs => by simp [jbeqL, jbeq_iff a b, jbeqL_iff as bs]

theorem jbeqLO_iff : ∀ a b : Option (List JType), jbeqLO a b = true ↔ a = b
  | none, none => by simp [jbeqLO]
  | none, some _ => by simp [jbeqLO]
  | some _, none => by simp [jbeqLO]
  | some a, some b => by simp [jbeqLO, jbeqL_iff a b]

theorem jbeqP_iff : ∀ a b : JParam, jbeqP a b = true ↔ a = b
  | (n, t), (n', t') => by simp [jbeqP, jbeqO_iff t t', Prod.ext_iff]

theorem jbeqPL_iff : ∀ a b : List JParam, jbeqPL a b = true ↔ a = b
  | [], [] => by simp [jbeqPL]
  | [], _ :: _ => by simp [jbeqPL]
  | _ :: _, [] => by simp [jbeqPL]
  | a :: as, b :: bs => by simp [jbeqPL, jbeqP_iff a b, jbeqPL_iff as bs]

theorem jbeqPO_iff : ∀ a b : Option (List JParam), jbeqPO a b = true ↔ a = b
  | none, none => by simp [jbeqPO]
  | none, some _ => by simp [jbeqPO]
  | some _, none => by simp [jbeqPO]
  | some a, some b => by simp [jbeqPO, jbeqPL_iff a b]

end

instance : DecidableEq JType := fun a b => decidable_of_iff _ (jbeq_iff a b)

theorem jbeq_self (a : JType) : jbeq a a = true := (jbeq_iff a a).mpr rfl

theorem jbeqO_self (a : Option JType) : jbeqO a a = true := (jbeqO_iff a a).mpr rfl

theorem jbeqL_self (a : List JType) : jbeqL a a = true := (jbeqL_iff a a).mpr rfl

theorem jbeqPL_self (a : List JParam) : jbeqPL a a = true := (jbeqPL_iff a a).mpr rfl

theorem jbeqPO_self (a : Option (List JParam)) : jbeqPO a a = true := (jbeqPO_iff a a).mpr rfl

/-- `arrayOf(elements)` (types.js line 79): `!elements ? 'array' :
{kind:'array', elements}`. -/
def arrayOf : Option JType → JType
  | none => .str "array"
  | some e => .obj "array" none none (some e) none

/-- `getKind(type)` (types.js line 102): `typeof type === 'object' ?
(Array.isArray(type) ? 'union' : type.kind) : type`. -/
def getKind : Option JType → Option String
  | none => none
  | some (.str k) => some k
  | some (.arr _) => some "union"
  | some (.obj k _ _ _ _) => some k

/-- `hasKind(type, kind)` (types.js line 114). The `type !== 'union'` conjunct
is always true for an array value. -/
def hasKind (t : Option JType) (kind : String) : Bool :=
  match t with
  | some (.arr ts) => ts.any fun x => getKind (some x) == some kind
  | _ => getKind t == some kind

theorem sizeOf_lpos {α} [SizeOf α] (l : List α) : 0 < sizeOf l := by
  cases l <;> simp_arith

mutual

/-- `isFalsy(type)` (types.js line 125): an array is falsy when non-empty and
all alternatives are falsy; otherwise the kind must be in
`['undefined','null']`. -/
def isFalsy : Option JType → Bool
  | some (.arr ts) => !ts.isEmpty && isFalsyL ts
  | t => getKind t == some "undefined" || getKind t == some "null"
termination_by t => sizeOf t
decreasing_by simp_wf; omega

def isFalsyL : List JType → Bool
  | [] => true
  | t :: ts => isFalsy (some t) && isFalsyL ts
termination_by l => sizeOf l
decreasing_by all_goals (simp_wf; try (have h0 := sizeOf_lpos ts; omega))

end

mutual

/-- `isTruthy(type)` (types.js line 137): an array is truthy when non-empty
and all alternatives are truthy; otherwise the kind must be in
`['symbol','object','function','array']`. -/
def isTruthy : Option JType → Bool
  | some (.arr ts) => !ts.isEmpty && isTruthyL ts
  | t => getKind t == some "symbol" || getKind t == some "object" ||
      getKind t == some "function" || getKind t == some "array"
termination_by t => sizeOf t
decreasing_by simp_wf; omega

def isTruthyL : List JType → Bool
  | [] => true
  | t :: ts => isTruthy (some t) && isTruthyL ts
termination_by l => sizeOf l
decreasing_by all_goals (simp_wf; try (have h0 := sizeOf_lpos ts; omega))

end

/-- `isUnion(type)` (types.js line 148): an array, or an object whose `kind`
is `'union'` (a bare string has no `kind` property). -/
def isUnion : Option JType → Bool
  | some (.arr _) => true
  | some (.obj k _ _ _ _) => k == "union"
  | _ => false

/-- `getUnionTypes(type)` (types.js line 162): `Array.isArray(type) ? type :
type ? type.anyOf || [type] : []`. -/
def getUnionTypes : Option JType → List JType
  | some (.arr ts) => ts
  | some (.obj k r p e (some ts)) => ts
  | some t => [t]
  | none => []

/-- `type.returns` as a property access on an arbitrary type value
(`undefined` on strings and arrays). -/
def returnsOf : Option JType → Option JType
  | some (.obj _ r _ _ _) => r
  | _ => none

/-- `type.params` as a property access on an arbitrary type value. -/
def paramsOf : Option JType → Option (List JParam)
  | some (.obj _ _ p _ _) => p
  | _ => none

/-- `type.elements` as a property access on an arbitrary type value. -/
def elementsOf : Option JType → Option JType
  | some (.obj _ _ _ e _) => e
  | _ => none

theorem sizeOf_getD_le (p : Option (List JParam)) : sizeOf (p.getD []) ≤ sizeOf p := by
  cases p <;> simp <;> omega

theorem sizeOf_opos {α} [SizeOf α] (o : Option α) : 0 < sizeOf o := by
  cases o <;> simp_arith

theorem sizeOf_returnsOf (s : Option JType) : sizeOf (returnsOf s) ≤ sizeOf s := by
  match s with
  | none => simp [returnsOf]
  | some (.str _) => simp [returnsOf] <;> omega
  | some (.arr _) => simp [returnsOf] <;> omega
  | some (.obj _ r _ _ _) => simp [returnsOf] <;> omega

theorem sizeOf_elementsOf (s : Option JType) : sizeOf (elementsOf s) ≤ sizeOf s := by
  match s with
  | none => simp [elementsOf]
  | some (.str _) => simp [elementsOf] <;> omega
  | some (.arr _) => simp [elementsOf] <;> omega
  | some (.obj _ _ _ e _) => simp [elementsOf] <;> omega

theorem sizeOf_paramsOf (s : Option JType) : sizeOf ((paramsOf s).getD []) ≤ sizeOf s := by
  match s with
  | none => simp [paramsOf]
  | some (.str _) => simp [paramsOf] <;> omega
  | some (.arr _) => simp [paramsOf] <;> omega
  | some (.obj _ _ p _ _) =>
      match p with
      | none => simp [paramsOf] <;> omega
      | some ps => simp [paramsOf] <;> omega


mutual

/-- `isAssignable(target, source)` (types.js lines 173-219).
A union source must have every alternative assignable to the target
(line 186); otherwise `targetSide` handles the union-target case and the
switch on the target kind.

A union-kind object lacking the required `anyOf` field sends the JS code
into `isAssignable(target, source)` with unchanged arguments via
`getUnionTypes` returning `[type]`, overflowing the stack; the embedding
returns `false` on that ill-formed input (both here and in `targetSide`). -/
def isAssignable : Option JType → Option JType → Bool
  | t, some (JType.arr ss) => allAssignFrom t ss
  | t, some (JType.obj ks rs ps es us) =>
      if ks == "union" then
        match us with
        | some ss => allAssignFrom t ss
        | none => false -- JS diverges on this input
      else targetSide t (some (JType.obj ks rs ps es us))
  | t, s => targetSide t s
termination_by t s => (sizeOf t + sizeOf s, 1)
decreasing_by all_goals
  (simp_wf <;>
    (first
    | omega
    | (have h1 := sizeOf_lpos ss; omega)
    | (have h1 := sizeOf_lpos ts; omega)))

/-- Lines 190-218 of `isAssignable`: the source is not a union; a union
target accepts when some alternative does, otherwise the switch on the
target kind decides. -/
def targetSide : Option JType → Option JType → Bool
  | some (JType.arr ts), s => anyAssignTo ts s
  | some (JType.obj kt r p e u), s =>
      if kt == "union" then
        match u with
        | some ts => anyAssignTo ts s
        | none => false -- JS diverges on this input
      else if kt == "undefined" || kt == "null" || kt == "boolean" ||
          kt == "number" || kt == "string" || kt == "symbol" then
        getKind s == some kt
      else if kt == "object" then
        getKind s == some "object" || getKind s == some "array"
      else if kt == "function" then
        getKind s == some "function" &&
          isAssignable r (returnsOf s) &&
          p.isSome && (paramsOf s).isSome &&
          (p.getD []).length == ((paramsOf s).getD []).length &&
          paramsAssign ((paramsOf s).getD []) (p.getD [])
      else if kt == "array" then
        getKind s == some "array" && isAssignable e (elementsOf s)
      else if kt == "any" then
        true
      else
        false -- unmatched kind: the JS switch falls through, returning undefined
  | some (JType.str kt), s =>
      -- a bare kind string target: `target.returns`, `target.params` and
      -- `target.elements` are undefined property accesses
      if kt == "undefined" || kt == "null" || kt == "boolean" ||
          kt == "number" || kt == "string" || kt == "symbol" then
        getKind s == some kt
      else if kt == "object" then
        getKind s == some "object" || getKind s == some "array"
      else if kt == "function" then
        getKind s == some "function" &&
          isAssignable none (returnsOf s) &&
          (none : Option (List JParam)).isSome && (paramsOf s).isSome &&
          ((none : Option (List JParam)).getD []).length
            == ((paramsOf s).getD []).length &&
          paramsAssign ((paramsOf s).getD []) ((none : Option (List JParam)).getD [])
      else if kt == "array" then
        getKind s == some "array" && isAssignable none (elementsOf s)
      else if kt == "any" then
        true
      else
        false
  | none, _ => false
termination_by t s => (sizeOf t + sizeOf s, 0)
decreasing_by all_goals
  (simp_wf <;>
    (first
    | omega
    | (have h1 := sizeOf_lpos ts; omega)
    | (have h1 := sizeOf_returnsOf s; omega)
    | (have h1 := sizeOf_elementsOf s; omega)
    | (have h1 := sizeOf_paramsOf s; omega)
    | (have h1 := sizeOf_paramsOf s; have h2 := sizeOf_getD_le p; omega)))

/-- `getUnionTypes(source).every(t => isAssignable(target, t))`
(types.js line 187). -/
def allAssignFrom (t : Option JType) : List JType → Bool
  | [] => true
  | s :: ss => isAssignable t (some s) && allAssignFrom t ss
termination_by ss => (sizeOf t + sizeOf ss, 1)
decreasing_by all_goals
  (simp_wf <;>
    (first
    | omega
    | (have h1 := sizeOf_lpos ss; omega)
    | (have h1 := sizeOf_lpos ts; omega)))

/-- `getUnionTypes(target).some(t => isAssignable(t, source))`
(types.js line 191). -/
def anyAssignTo : List JType → Option JType → Bool
  | [], _ => false
  | t :: ts, s => isAssignable (some t) s || anyAssignTo ts s
termination_by ts s => (sizeOf ts + sizeOf s, 1)
decreasing_by all_goals
  (simp_wf <;>
    (first
    | omega
    | (have h1 := sizeOf_lpos ts; omega)
    | (have h1 := sizeOf_lpos ss; omega)))

/-- `source.params.every((p, i) => isAssignable(p.type, target.params[i].type))`
(types.js line 213); first argument the source parameter list, second the
target parameter list.  The call is guarded by the preceding length-equality
check, so the value on ragged lists (where JS would fault on an undefined
parameter) never reaches the result. -/
def paramsAssign : List JParam → List JParam → Bool
  | [], _ => true
  | (sn, st) :: sps, (tn, tt) :: tps => isAssignable st tt && paramsAssign sps tps
  | _ :: _, [] => false
termination_by sps tps => (sizeOf sps + sizeOf tps, 1)
decreasing_by all_goals (simp_wf <;> omega)

end

/-- `isNotAssignable(target, source)` (types.js line 228):
`!!target && !isAssignable(target, source)`. -/
def isNotAssignable (target source : Option JType) : Bool :=
  target.isSome && !isAssignable target source

/-- JavaScript truthiness of a type value: every array and object is truthy;
a string is truthy unless empty. -/
def jsTruthy : JType → Bool
  | .str k => k ≠ ""
  | _ => true

/-- JavaScript truthiness of a possibly-undefined type value. -/
def jsTruthyO : Option JType → Bool
  | none => false
  | some t => jsTruthy t

/-- The JavaScript value returned by `union(a, b)` (types.js line 240):
`undefined` when an operand is missing, a type, or — in the degenerate
one-survivor merge branch — the iterator result object
`members.values().next()`, which is `{value, done}` and not a type. -/
inductive UnionRet where
  | undef
  | ty (t : JType)
  | iter (value : Option JType) (done : Bool)

/-- Membership in the JS `Set` of merge members (reference equality, which for
the string/shared-object values involved coincides with `jbeq`). -/
def setHas (m : List JType) (x : JType) : Bool :=
  m.any fun y => jbeq y x

/-- `Set.add`: appends at the end unless already present (insertion order is
preserved, re-adding an existing element keeps its original position). -/
def setAdd (m : List JType) (x : JType) : List JType :=
  if setHas m x then m else m ++ [x]

/-- `Set.delete`: removes the element if present. -/
def setDelete (m : List JType) (x : JType) : List JType :=
  m.filter fun y => !jbeq y x

/-- `new Set(aTypes)`: insertion-ordered deduplication. -/
def setOf (l : List JType) : List JType :=
  l.foldl setAdd []

/-- One inner-loop step of the pairwise merge in `union` (types.js lines
258-272): compare `be` against `ae`; an equivalent `be` is ignored, a strict
supertype `be` replaces `ae`, a strict subtype `be` is ignored, an unrelated
`be` is added. -/
def mergePair (m : List JType) (be ae : JType) : List JType :=
  if isAssignable (some be) (some ae) then
    if isAssignable (some ae) (some be) then m
    else setAdd (setDelete m ae) be
  else if isAssignable (some ae) (some be) then m
  else setAdd m be

/-- The inner loop over `aTypes` for a fixed element `be` of `b`. -/
def mergeB (aTypes : List JType) (m : List JType) (be : JType) : List JType :=
  aTypes.foldl (fun acc ae => mergePair acc be ae) m

/-- The full double loop of `union` on two unions: members start as
`new Set(aTypes)` and every element of `b` is merged in. -/
def unionMerge (aTypes bTypes : List JType) : List JType :=
  bTypes.foldl (mergeB aTypes) (setOf aTypes)

/-- `union(a, b)` (types.js lines 240-285).  Note the degenerate branch
(line 275): when the merged member set has exactly one element the code
returns `members.values().next()` — the *iterator result object*
`{value, done}`, not the surviving type. -/
def union (a b : Option JType) : UnionRet :=
  if jsTruthyO a && jsTruthyO b then
    match a, b with
    | some av, some bv =>
      if isAssignable a b then .ty av
      else if isAssignable b a then .ty bv
      else if isUnion a then
        if isUnion b then
          let members := unionMerge (getUnionTypes a) (getUnionTypes b)
          if members.length ≠ 1 then .ty (.arr members)
          else .iter members.head? false
        else .ty (.arr (getUnionTypes a ++ [bv]))
      else if isUnion b then .ty (.arr (av :: getUnionTypes b))
      else .ty (.arr [av, bv])
    | _, _ => .undef
  else ( .undef : UnionRet)

/-- JavaScript truthiness of a possibly-undefined string. -/
def optStrTruthy : Option String → Bool
  | none => false
  | some s => s ≠ ""

mutual

/-- `formatType(type, contextPrecedence = 0)` (types.js lines 314-344).
`precedence` stays undefined (no parentheses) for bare kinds and unknown
types, is 1 for a union with at least one alternative (the assignment
`precedence = 1` runs inside the `map` callback, so an empty union leaves it
undefined), 2 for a function type with a return type, and the array case
returns early without consulting the context.  The type-object case is
delegated to `fmtObj`. -/
def formatType : Option JType → Nat → String
  | none, _ => "unknown"
  | some (JType.str k), _ => k
  | some (JType.arr ts), ctx => unionFmt ts ctx
  | some (JType.obj k r p e u), ctx => fmtObj k r p e u ctx
termination_by t _ => sizeOf t
decreasing_by all_goals (simp_wf <;> omega)

/-- The type-object part of `formatType`: the `isUnion` test and the switch
on the object kind. -/
def fmtObj (k : String) (r : Option JType) (p : Option (List JParam))
    (e : Option JType) (u : Option (List JType)) (ctx : Nat) : String :=
  if k == "union" then fmtUnionObj u ctx
  else if k == "function" then fmtFn k p r ctx
  else if k == "array" then fmtArr k e
  else k
termination_by sizeOf r + sizeOf p + sizeOf e + sizeOf u
decreasing_by all_goals
  (simp_wf <;>
    (first
    | omega
    | (have h1 := sizeOf_opos r; have h2 := sizeOf_opos p; have h3 := sizeOf_opos e;
       have h4 := sizeOf_opos u; omega)))

/-- A union-kind object formats its `anyOf` alternatives; the JS recursion
diverges when `anyOf` is missing (modelled as `""`). -/
def fmtUnionObj : Option (List JType) → Nat → String
  | some ts, ctx => unionFmt ts ctx
  | none, _ => "" -- JS diverges on this input
termination_by u _ => sizeOf u + 1
decreasing_by all_goals (simp_wf <;> omega)

/-- The union alternatives joined by `' | '` at context precedence 1, with
the surrounding parenthesization decision of `formatType` (an empty union
leaves `precedence` undefined and is never parenthesized). -/
def unionFmt (ts : List JType) (ctx : Nat) : String :=
  let res := String.intercalate " | " (fmtList ts)
  if ts.isEmpty then res
  else if 1 < ctx then "(" ++ res ++ ")" else res
termination_by sizeOf ts + 1
decreasing_by all_goals (simp_wf <;> omega)

def fmtList : List JType → List String
  | [] => []
  | t :: ts => formatType (some t) 1 :: fmtList ts
termination_by ts => sizeOf ts
decreasing_by all_goals (simp_wf <;> (first | omega | (have h1 := sizeOf_lpos ts; omega)))

/-- The function-kind branch of `formatType`: `kind(params): returns`, with
`precedence = 2` assigned exactly when a return type is present. -/
def fmtFn (k : String) (p : Option (List JParam)) (r : Option JType)
    (ctx : Nat) : String :=
  let base := k ++ fmtParamsPart p
  match r with
  | some rt =>
      let res := base ++ ": " ++ formatType (some rt) 2
      if 2 < ctx then "(" ++ res ++ ")" else res
  | none => base
termination_by sizeOf p + sizeOf r
decreasing_by all_goals
  (simp_wf <;>
    (first
    | omega
    | (have h1 := sizeOf_opos p; omega)
    | (have h1 := sizeOf_opos r; omega)))

/-- `(${type.params.map(formatParam).join(', ')})`, or nothing when `params`
is absent. -/
def fmtParamsPart : Option (List JParam) → String
  | some ps => "(" ++ String.intercalate ", " (fmtParams ps) ++ ")"
  | none => ""
termination_by p => sizeOf p
decreasing_by all_goals (simp_wf <;> omega)

def fmtParams : List JParam → List String
  | [] => []
  | p :: ps => formatParam p :: fmtParams ps
termination_by ps => sizeOf ps
decreasing_by all_goals (simp_wf <;> (first | omega | (have h1 := sizeOf_lpos ps; omega)))

/-- `formatParam(param)` (types.js lines 346-350): `name: type`, `:type`,
bare `name`, or `_`. -/
def formatParam : JParam → String
  | (n, t) =>
      let paramType := formatType t 0
      if optStrTruthy n && jsTruthyO t then n.getD "" ++ ": " ++ paramType
      else if jsTruthyO t then ":" ++ paramType
      else if optStrTruthy n then n.getD "" else "_"
termination_by p => sizeOf p
decreasing_by all_goals (simp_wf <;> omega)

/-- The array-kind branch of `formatType`: formats the element type at
precedence 3 and returns early (never parenthesized itself); without an
element type the result is the bare kind. -/
def fmtArr (k : String) : Option JType → String
  | some et => formatType (some et) 3 ++ "[]"
  | none => k
termination_by e => sizeOf e + 1
decreasing_by all_goals (simp_wf <;> omega)

end

/-- `toCanonical` or `toShorthand` applied to a `Parameter` object
`{name?, type?}` (an element of a `params` array, reached through
`mapIfChanged(type.params, fn)` in `transformFunction`): the object is not an
array, not a string, truthy, and has no `kind` property, so
`transformNested` falls to its `default` arm (and `toShorthand` falls past
all its cases), returning the object unchanged. -/
def transformParam (p : JParam) : JParam := p

/-- `mapIfChanged(arr, fn)` (types.js line 464) specialised to a parameter
list: returns the original array when no element changed (`===`), which is
always the case here. -/
def mapIfChangedP (ps : List JParam) : List JParam :=
  let newArr := ps.map transformParam
  if jbeqPL newArr ps then ps else newArr

mutual

/-- `toCanonical(type)` (types.js lines 358-366) on a defined type: an array
becomes `{kind:'union', anyOf: …}`, a string becomes `{kind: str}`, an object
goes through `transformNested` (function/array/union rewrite their
`returns`/`elements`/`anyOf`, anything else is returned unchanged).  The
result is in `Except` because `transformFunction`'s misspelt
`results.params = params` branch (types.js line 433) would raise a
`ReferenceError` if a parameter list ever changed. -/
def toCanonicalT : JType → Except String JType
  | .arr ts => do
      let ts2 ← toCanonicalL ts
      pure (.obj "union" none none none (some ts2))
  | .str k => pure (.obj k none none none none)
  | .obj k r p e u =>
      if k == "function" then transformFunctionC k r p e u
      else if k == "array" then transformArrayC k r p e u
      else if k == "union" then transformUnionC k r p e u
      else pure (.obj k r p e u)
termination_by t => sizeOf t
decreasing_by all_goals (simp_wf <;> omega)

def toCanonicalL : List JType → Except String (List JType)
  | [] => pure []
  | t :: ts => do
      let t2 ← toCanonicalT t
      let ts2 ← toCanonicalL ts
      pure (t2 :: ts2)
termination_by ts => sizeOf ts
decreasing_by all_goals (simp_wf <;> (first | omega | (have h1 := sizeOf_lpos ts; omega)))

/-- `transformFunction(type, toCanonical)` (types.js lines 423-438).
`returns` is rewritten when truthy; the parameter list never changes (see
`transformParam`), but if it did, the misspelt `results.params` would raise
`ReferenceError`; that branch is kept. -/
def transformFunctionC (k : String) (r : Option JType)
    (p : Option (List JParam)) (e : Option JType) (u : Option (List JType)) :
    Except String JType := do
  let returns : Option JType ← match r with
    | none => pure none
    | some rt =>
        if jsTruthy rt then (fun x => some x) <$> toCanonicalT rt
        else pure (some rt)
  let params : Option (List JParam) := match p with
    | none => none
    | some ps => some (mapIfChangedP ps)
  if !jbeqO returns r || !jbeqPO params p then
    if !jbeqPO params p then throw "ReferenceError: results is not defined"
    else pure (.obj k returns p e u)
  else pure (.obj k r p e u)
termination_by sizeOf r
decreasing_by all_goals (simp_wf <;> omega)

/-- `transformArray(type, toCanonical)` (types.js lines 440-450): the guard
`if (type.elements)` is a truthiness test, so a falsy `elements` (absent or
the empty string) leaves the object unchanged. -/
def transformArrayC (k : String) (r : Option JType)
    (p : Option (List JParam)) (e : Option JType) (u : Option (List JType)) :
    Except String JType :=
  match e with
  | some et =>
      if jsTruthy et then do
        let et2 ← toCanonicalT et
        if jbeq et2 et then pure (.obj k r p e u)
        else pure (.obj k r p (some et2) u)
      else pure (.obj k r p e u)
  | none => pure (.obj k r p e u)
termination_by sizeOf e
decreasing_by all_goals (simp_wf <;> omega)

/-- `transformUnion(type, toCanonical)` (types.js lines 452-462). -/
def transformUnionC (k : String) (r : Option JType)
    (p : Option (List JParam)) (e : Option JType) (u : Option (List JType)) :
    Except String JType :=
  match u with
  | some ts => do
      let ts2 ← toCanonicalL ts
      if jbeqL ts2 ts then pure (.obj k r p e u)
      else pure (.obj k r p e (some ts2))
  | none => pure (.obj k r p e u)
termination_by sizeOf u
decreasing_by all_goals (simp_wf <;> omega)

end

/-- JavaScript truthiness of a possibly-undefined parameter array: arrays
are truthy objects even when empty. -/
def pTruthy : Option (List JParam) → Bool
  | none => false
  | some _ => true

/-- `toCanonical` on a possibly-undefined type (`undefined` maps to itself). -/
def toCanonical : Option JType → Except String (Option JType)
  | none => pure none
  | some t => (fun x => some x) <$> toCanonicalT t

mutual

/-- `toShorthand(type)` (types.js lines 385-408): the outer guard
`type && type.kind` admits any object with a truthy (non-empty) `kind`
string, so an empty-kind object passes through unchanged.  `function` with
neither a truthy `returns` nor `params` and `array` without truthy
`elements` collapse to their kind string, `union` objects become arrays via
`mapIfChanged(type.anyOf, …)` (raising a `TypeError` when the required
`anyOf` is missing, since `undefined.map` is not a function), other kinds
collapse to their kind string; arrays map over their elements; strings (no
`kind` property) pass through unchanged. -/
def toShorthandT : JType → Except String JType
  | .obj k r p e u =>
      if k == "" then pure (.obj k r p e u)
      else if k == "function" then
        if !jsTruthyO r && !pTruthy p then pure (.str k)
        else transformFunctionS k r p e u
      else if k == "array" then
        if jsTruthyO e then transformArrayS k r p e u
        else pure (.str k)
      else if k == "union" then
        match u with
        | none => throw "TypeError: undefined has no map"
        | some ts => do
            let ts2 ← toShorthandL ts
            pure (.arr (if jbeqL ts2 ts then ts else ts2))
      else pure (.str k)
  | .arr ts => do
      let ts2 ← toShorthandL ts
      pure (.arr (if jbeqL ts2 ts then ts else ts2))
  | .str s => pure (.str s)
termination_by t => sizeOf t
decreasing_by all_goals (simp_wf <;> omega)

def toShorthandL : List JType → Except String (List JType)
  | [] => pure []
  | t :: ts => do
      let t2 ← toShorthandT t
      let ts2 ← toShorthandL ts
      pure (t2 :: ts2)
termination_by ts => sizeOf ts
decreasing_by all_goals (simp_wf <;> (first | omega | (have h1 := sizeOf_lpos ts; omega)))

/-- `transformFunction(type, toShorthand)`, with the same dead-but-kept
`ReferenceError` branch as `transformFunctionC`. -/
def transformFunctionS (k : String) (r : Option JType)
    (p : Option (List JParam)) (e : Option JType) (u : Option (List JType)) :
    Except String JType := do
  let returns : Option JType ← match r with
    | none => pure none
    | some rt =>
        if jsTruthy rt then (fun x => some x) <$> toShorthandT rt
        else pure (some rt)
  let params : Option (List JParam) := match p with
    | none => none
    | some ps => some (mapIfChangedP ps)
  if !jbeqO returns r || !jbeqPO params p then
    if !jbeqPO params p then throw "ReferenceError: results is not defined"
    else pure (.obj k returns p e u)
  else pure (.obj k r p e u)
termination_by sizeOf r
decreasing_by all_goals (simp_wf <;> omega)

/-- `transformArray(type, toShorthand)`, with the same truthiness guard on
`elements` as `transformArrayC`. -/
def transformArrayS (k : String) (r : Option JType)
    (p : Option (List JParam)) (e : Option JType) (u : Option (List JType)) :
    Except String JType :=
  match e with
  | some et =>
      if jsTruthy et then do
        let et2 ← toShorthandT et
        if jbeq et2 et then pure (.obj k r p e u)
        else pure (.obj k r p (some et2) u)
      else pure (.obj k r p e u)
  | none => pure (.obj k r p e u)
termination_by sizeOf e
decreasing_by all_goals (simp_wf <;> omega)

end

/-- `toShorthand` on a possibly-undefined type. -/
def toShorthand : Option JType → Except String (Option JType)
  | none => pure none
  | some t => (fun x => some x) <$> toShorthandT t

/-! ### Claim C1: reflexivity of `isAssignable` and idempotence of `union` -/

mutual

/-- The class of types on which `isAssignable` is reflexive: primitive kind
strings and objects (including `any`), arrays carrying an element type in the
class, functions carrying a return type in the class and a parameter list all
of whose parameters carry types in the class, and unions (array form or
`anyOf` object form) of non-union members of the class.  Bare `array` and
`function` kinds and element-less/signature-less objects are excluded:
on those the code recurses into an undefined target (`target.elements`,
`target.returns` or `target.params` of a bare string) and yields `false`. -/
def reflType : JType → Bool
  | .str k =>
      k == "undefined" || k == "null" || k == "boolean" || k == "number" ||
        k == "string" || k == "symbol" || k == "object" || k == "any"
  | .arr ts => reflAlts ts
  | .obj k r p e u =>
      if k == "undefined" || k == "null" || k == "boolean" || k == "number" ||
          k == "string" || k == "symbol" || k == "object" || k == "any" then true
      else if k == "array" then
        match e with
        | some et => reflType et
        | none => false
      else if k == "function" then
        match r, p with
        | some rt, some ps => reflType rt && reflParams ps
        | _, _ => false
      else if k == "union" then
        match u with
        | some ts => reflAlts ts
        | none => false
      else false
termination_by t => sizeOf t
decreasing_by all_goals (simp_wf <;> omega)

def reflAlts : List JType → Bool
  | [] => true
  | t :: ts => !isUnion (some t) && reflType t && reflAlts ts
termination_by ts => sizeOf ts
decreasing_by all_goals (simp_wf <;> (first | omega | (have h1 := sizeOf_lpos ts; omega)))

def reflParams : List JParam → Bool
  | [] => true
  | (_, some pt) :: ps => reflType pt && reflParams ps
  | (_, none) :: _ => false
termination_by ps => sizeOf ps
decreasing_by all_goals (simp_wf <;> (first | omega | (have h1 := sizeOf_lpos ps; omega)))

end

theorem anyAssignTo_of_mem (ts : List JType) (s : JType) (hmem : s ∈ ts)
    (hs : isAssignable (some s) (some s) = true) :
    anyAssignTo ts (some s) = true := by
  induction ts with
  | nil => cases hmem
  | cons t ts ih =>
      simp only [anyAssignTo]
      rcases List.mem_cons.mp hmem with h | h
      · subst h; rw [hs]; simp
      · rw [ih h]; simp

theorem isAssignable_nonunion_src (t : Option JType) (s : JType)
    (hs : isUnion (some s) = false) :
    isAssignable t (some s) = targetSide t (some s) := by
  cases s with
  | str k => simp [isAssignable]
  | arr ss => simp [isUnion] at hs
  | obj k r p e u =>
      have hk : ¬k = "union" := by
        intro h; subst h; simp [isUnion] at hs
      rw [isAssignable.eq_def]
      split
      all_goals try rfl
      all_goals simp_all

theorem assign_arr_nonunion (ts : List JType) (s : JType)
    (hs : isUnion (some s) = false) :
    isAssignable (some (.arr ts)) (some s) = anyAssignTo ts (some s) := by
  rw [isAssignable_nonunion_src _ s hs]; simp [targetSide]

theorem assign_unionObj_nonunion (r0 : Option JType) (p0 : Option (List JParam))
    (e0 : Option JType) (ts : List JType) (s : JType)
    (hs : isUnion (some s) = false) :
    isAssignable (some (.obj "union" r0 p0 e0 (some ts))) (some s)
      = anyAssignTo ts (some s) := by
  rw [isAssignable_nonunion_src _ s hs]; simp [targetSide]

theorem allAssignFrom_refl (tgt : Option JType) (ts : List JType)
    (hstep : ∀ s, isUnion (some s) = false →
      isAssignable tgt (some s) = anyAssignTo ts (some s)) :
    ∀ ss, (∀ s ∈ ss, isUnion (some s) = false ∧
        isAssignable (some s) (some s) = true ∧ s ∈ ts) →
      allAssignFrom tgt ss = true := by
  intro ss h
  induction ss with
  | nil => simp [allAssignFrom]
  | cons s ss ih =>
      obtain ⟨hnu, hself, hmem⟩ := h s (List.mem_cons_self s ss)
      simp only [allAssignFrom]
      rw [hstep s hnu, anyAssignTo_of_mem ts s hmem hself,
        ih (fun x hx => h x (List.mem_cons_of_mem s hx))]
      simp

theorem reflType_jsTruthy : ∀ t, reflType t = true → jsTruthy t = true := by
  intro t h
  cases t with
  | str k =>
      rw [reflType.eq_def] at h
      dsimp only at h
      simp only [Bool.or_eq_true, beq_iff_eq] at h
      rcases h with ((((((h | h) | h) | h) | h) | h) | h) | h <;> subst h <;>
        simp [jsTruthy]
  | arr ts => simp [jsTruthy]
  | obj k r p e u => simp [jsTruthy]

theorem sizeOf_tpos (t : JType) : 0 < sizeOf t := by
  cases t <;> simp_arith

/-- Unpacking `reflAlts`: every member of a well-formed alternative list is a
non-union member of the reflexive class. -/
theorem reflAlts_mem : ∀ ts, reflAlts ts = true →
    ∀ s ∈ ts, isUnion (some s) = false ∧ reflType s = true := by
  intro ts
  induction ts with
  | nil => intro _ s hs; exact absurd hs (List.not_mem_nil s)
  | cons t ts ih =>
      intro h s hs
      simp only [reflAlts, Bool.and_eq_true] at h
      obtain ⟨⟨hnu, hrt⟩, hrest⟩ := h
      rcases List.mem_cons.mp hs with hEq | hs2
      · rw [hEq]; exact ⟨by simpa using hnu, hrt⟩
      · exact ih hrest s hs2

/-- Unpacking `reflParams`: every parameter carries a type in the class. -/
theorem reflParams_mem : ∀ ps, reflParams ps = true →
    ∀ q ∈ ps, ∃ pt, q.2 = some pt ∧ reflType pt = true := by
  intro ps
  induction ps with
  | nil => intro _ q hq; exact absurd hq (List.not_mem_nil q)
  | cons p0 ps ih =>
      intro h q hq
      match p0, h with
      | (n0, some pt), h => ?_
      | (n0, none), h => exact absurd h (by simp [reflParams])
      simp only [reflParams, Bool.and_eq_true] at h
      rcases List.mem_cons.mp hq with hEq | hq2
      · exact ⟨pt, by rw [hEq], h.1⟩
      · exact ih h.2 q hq2

/-- Pointwise reflexive parameter types give a reflexive `paramsAssign`. -/
theorem paramsAssign_refl : ∀ ps,
    (∀ q ∈ ps, ∃ pt, q.2 = some pt ∧ isAssignable (some pt) (some pt) = true) →
    paramsAssign ps ps = true := by
  intro ps
  induction ps with
  | nil => intro _; simp [paramsAssign]
  | cons p0 ps ih =>
      intro h
      obtain ⟨pt, hq, hpt⟩ := h p0 (List.mem_cons_self p0 ps)
      match p0, hq with
      | (n0, _), hq =>
          cases hq
          simp only [paramsAssign, Bool.and_eq_true]
          exact ⟨hpt, ih fun q hq2 => h q (List.mem_cons_of_mem _ hq2)⟩

theorem reflType_assign_aux : ∀ n t, sizeOf t ≤ n → reflType t = true →
    isAssignable (some t) (some t) = true := by
  intro n
  induction n with
  | zero => intro t hsz _; have := sizeOf_tpos t; omega
  | succ n ih =>
      intro t hsz h
      cases t with
      | str k =>
          rw [reflType.eq_def] at h
          dsimp only at h
          simp only [Bool.or_eq_true, beq_iff_eq] at h
          rcases h with ((((((h | h) | h) | h) | h) | h) | h) | h <;> subst h <;>
            (rw [isAssignable.eq_def]; dsimp only; simp [targetSide.eq_def, getKind])
      | arr ts =>
          have hmem := reflAlts_mem ts (by
            rw [show reflType (.arr ts) = reflAlts ts from by simp [reflType]] at h
            exact h)
          have hsz2 : sizeOf ts ≤ n := by simp_arith at hsz; omega
          have hAll : ∀ s ∈ ts, isUnion (some s) = false ∧
              isAssignable (some s) (some s) = true := by
            intro s hs
            obtain ⟨h1, h2⟩ := hmem s hs
            have hlt := List.sizeOf_lt_of_mem hs
            exact ⟨h1, ih s (by omega) h2⟩
          rw [show isAssignable (some (.arr ts)) (some (.arr ts))
              = allAssignFrom (some (.arr ts)) ts from by simp [isAssignable]]
          exact allAssignFrom_refl _ ts (fun s hsnu => assign_arr_nonunion ts s hsnu) ts
            (fun s hsm => ⟨(hAll s hsm).1, (hAll s hsm).2, hsm⟩)
      | obj k r p e u =>
          rw [reflType.eq_def] at h
          dsimp only at h
          split at h
          case isTrue hc =>
            simp only [Bool.or_eq_true, beq_iff_eq] at hc
            rcases hc with ((((((hk | hk) | hk) | hk) | hk) | hk) | hk) | hk <;> subst hk <;>
              (rw [isAssignable.eq_def]; dsimp only; simp [targetSide.eq_def, getKind])
          case isFalse hc =>
            split at h
            case isTrue ha =>
              have hk : k = "array" := by simpa using ha
              subst hk
              cases e with
              | none => dsimp only at h; exact absurd h (by simp)
              | some et =>
                  dsimp only at h
                  have hsz3 : sizeOf et ≤ n := by simp_arith at hsz; omega
                  have iha := ih et hsz3 h
                  rw [isAssignable_nonunion_src _ _ (by simp [isUnion])]
                  rw [targetSide.eq_def]; dsimp only
                  simp [getKind, elementsOf, iha]
            case isFalse ha =>
              split at h
              case isTrue hf =>
                have hk : k = "function" := by simpa using hf
                subst hk
                cases r with
                | none => cases p <;> (dsimp only at h; exact absurd h (by simp))
                | some rt =>
                    cases p with
                    | none => dsimp only at h; exact absurd h (by simp)
                    | some ps =>
                        dsimp only at h
                        simp only [Bool.and_eq_true] at h
                        have hszr : sizeOf rt ≤ n := by simp_arith at hsz; omega
                        have ih1 := ih rt hszr h.1
                        have hpm := reflParams_mem ps h.2
                        have ih2 : paramsAssign ps ps = true := by
                          refine paramsAssign_refl ps ?_
                          intro q hq
                          obtain ⟨pt, hq2, hpt⟩ := hpm q hq
                          refine ⟨pt, hq2, ih pt ?_ hpt⟩
                          have hlt := List.sizeOf_lt_of_mem hq
                          have hle : sizeOf pt ≤ sizeOf q := by
                            match q, hq2 with
                            | (n0, _), hq2 => cases hq2; simp_arith
                          simp_arith at hsz
                          omega
                        rw [isAssignable_nonunion_src _ _ (by simp [isUnion])]
                        rw [targetSide.eq_def]; dsimp only
                        simp [getKind, returnsOf, paramsOf, ih1, ih2]
              case isFalse hf =>
                split at h
                case isTrue hu =>
                  have hk : k = "union" := by simpa using hu
                  subst hk
                  cases u with
                  | none => dsimp only at h; exact absurd h (by simp)
                  | some ts =>
                      dsimp only at h
                      have hmem := reflAlts_mem ts h
                      have hsz2 : sizeOf ts ≤ n := by simp_arith at hsz; omega
                      have hAll : ∀ s ∈ ts, isUnion (some s) = false ∧
                          isAssignable (some s) (some s) = true := by
                        intro s hs
                        obtain ⟨h1, h2⟩ := hmem s hs
                        have hlt := List.sizeOf_lt_of_mem hs
                        exact ⟨h1, ih s (by omega) h2⟩
                      rw [show isAssignable (some (.obj "union" r p e (some ts)))
                          (some (.obj "union" r p e (some ts)))
                          = allAssignFrom (some (.obj "union" r p e (some ts))) ts from by
                        simp [isAssignable]]
                      exact allAssignFrom_refl _ ts
                        (fun s hsnu => assign_unionObj_nonunion r p e ts s hsnu) ts
                        (fun s hsm => ⟨(hAll s hsm).1, (hAll s hsm).2, hsm⟩)
                case isFalse hu => simp at h

/-- `isAssignable` is reflexive on the class `reflType`. -/
theorem reflType_assign (t : JType) (h : reflType t = true) :
    isAssignable (some t) (some t) = true :=
  reflType_assign_aux (sizeOf t) t le_rfl h

/-- **C1** (counterexample).  The claim asserts `isAssignable(a, a)` and
`union(a, a) == a` for every representable Type, "in particular … the bare
kind string 'array'".  For `a = 'array'` the code recurses into
`isAssignable(target.elements, source.elements)` with both sides `undefined`,
which returns `false`, so `isAssignable('array','array')` is `false` and
`union('array','array')` is the two-element array `['array','array']`,
not `'array'`. -/
theorem c1_counterexample :
    isAssignable (some (JType.str "array")) (some (JType.str "array")) = false ∧
    union (some (JType.str "array")) (some (JType.str "array"))
      = UnionRet.ty (JType.arr [JType.str "array", JType.str "array"]) ∧
    JType.arr [JType.str "array", JType.str "array"] ≠ JType.str "array" := by
  refine ⟨?_, ?_, by simp⟩
  · simp [isAssignable, targetSide, getKind, elementsOf]
  · simp [union, jsTruthyO, jsTruthy, isUnion, isAssignable, targetSide, getKind, elementsOf]

/-- **C1** (amended).  `isAssignable(a, a)` is true and `union(a, a) = a` for
every type in the reflexive class `reflType`: primitive kinds (as strings or
objects), `any`, arrays with an element type in the class, functions with a
return type and a fully-typed parameter list in the class, and non-nested
unions of such types.  The original claim fails exactly outside this class:
bare `'array'`/`'function'` kind strings and element-less or signature-less
`array`/`function` objects are not self-assignable (see
`c1_counterexample`). -/
theorem c1_reflexivity_idempotence (t : JType) (h : reflType t = true) :
    isAssignable (some t) (some t) = true ∧ union (some t) (some t) = UnionRet.ty t := by
  have ha := reflType_assign t h
  have htr := reflType_jsTruthy t h
  exact ⟨ha, by simp [union, jsTruthyO, htr, ha]⟩

/-- Witness for `c1_reflexivity_idempotence` at the concrete type
`'number'`. -/
theorem c1_reflexivity_idempotence_witness :
    reflType (JType.str "number") = true ∧
    isAssignable (some (JType.str "number")) (some (JType.str "number")) = true ∧
    union (some (JType.str "number")) (some (JType.str "number"))
      = UnionRet.ty (JType.str "number") := by
  have h : reflType (JType.str "number") = true := by
    rw [reflType.eq_def]; simp
  have h2 := c1_reflexivity_idempotence (JType.str "number") h
  exact ⟨h, h2.1, h2.2⟩

/-! ### Claim C3: contravariant function-parameter assignability -/

theorem paramsAssign_iff : ∀ (sps tps : List JParam), sps.length = tps.length →
    (paramsAssign sps tps = true ↔
      ∀ i (h1 : i < sps.length) (h2 : i < tps.length),
        isAssignable (sps.get ⟨i, h1⟩).2 (tps.get ⟨i, h2⟩).2 = true) := by
  intro sps
  induction sps with
  | nil =>
      intro tps hlen
      simp [paramsAssign]
  | cons sp sps ih =>
      intro tps hlen
      cases tps with
      | nil => simp at hlen
      | cons tp tps =>
          match sp, tp with
          | (sn, st), (tn, tt) =>
            simp only [paramsAssign, Bool.and_eq_true]
            constructor
            · rintro ⟨h1, h2⟩ i hi hj
              cases i with
              | zero => simpa using h1
              | succ i =>
                  exact (ih tps (by simpa using hlen)).mp h2 i (by simpa using hi)
                    (by simpa using hj)
            · intro hAll
              refine ⟨by simpa using hAll 0 (by simp) (by simp),
                (ih tps (by simpa using hlen)).mpr ?_⟩
              intro i hi hj
              simpa using hAll (i + 1) (by simpa using hi) (by simpa using hj)

/-- **C3**.  For canonical function types that both carry a `params` list and
a `returns` type, `isAssignable(T, S)` holds exactly when the parameter lists
have equal length, each source parameter type accepts the corresponding
target parameter type (contravariance: the recursive call is
`isAssignable(S.params[i].type, T.params[i].type)`), and the return types are
covariantly assignable. -/
theorem c3_function_contravariance (rt rs : JType) (ps qs : List JParam)
    (e1 e2 : Option JType) (u1 u2 : Option (List JType)) :
    isAssignable (some (.obj "function" (some rt) (some ps) e1 u1))
        (some (.obj "function" (some rs) (some qs) e2 u2)) = true ↔
      (ps.length = qs.length ∧
        (∀ i (h1 : i < qs.length) (h2 : i < ps.length),
          isAssignable (qs.get ⟨i, h1⟩).2 (ps.get ⟨i, h2⟩).2 = true) ∧
        isAssignable (some rt) (some rs) = true) := by
  have hL : isAssignable (some (.obj "function" (some rt) (some ps) e1 u1))
      (some (.obj "function" (some rs) (some qs) e2 u2))
      = (isAssignable (some rt) (some rs) && (ps.length == qs.length)
          && paramsAssign qs ps) := by
    rw [isAssignable.eq_def]; dsimp only
    rw [targetSide.eq_def]; dsimp only
    simp [getKind, returnsOf, paramsOf]
  rw [hL]
  simp only [Bool.and_eq_true, beq_iff_eq]
  constructor
  · rintro ⟨⟨hrt, hlen⟩, hpa⟩
    exact ⟨hlen, fun i h1 h2 => (paramsAssign_iff qs ps (by omega)).mp hpa i h1 h2, hrt⟩
  · rintro ⟨hlen, hpa, hrt⟩
    exact ⟨⟨hrt, hlen⟩, (paramsAssign_iff qs ps (by omega)).mpr hpa⟩

/-- Witness for `c3_function_contravariance`, at the function types from the
repository test suite: target `function(:string): string` accepts source
`function(:any): string` because `any` (the source parameter type) accepts
`string` (the target parameter type). -/
theorem c3_function_contravariance_witness :
    isAssignable
      (some (.obj "function" (some (.str "string")) (some [(none, some (.str "string"))]) none none))
      (some (.obj "function" (some (.str "string")) (some [(none, some (.str "any"))]) none none))
      = true :=
  (c3_function_contravariance (.str "string") (.str "string")
    [(none, some (.str "string"))] [(none, some (.str "any"))] none none none none).mpr
    ⟨rfl,
      fun i h1 h2 => by
        match i, h1, h2 with
        | 0, _, _ => simp [isAssignable, targetSide]
      , by simp [isAssignable, targetSide, getKind]⟩

/-! ### Claim C6: precedence-driven parenthesization in `formatType` -/

/-- The `precedence` value that `formatType` ends up holding for a type
(`none` models the JavaScript `undefined`, which compares `<` as false and
therefore never parenthesizes): 1 for a union with at least one alternative
(the assignment runs inside the `map` callback), 2 for a function with a
return type, 3 for an array with an element type (never consulted, since the
array case returns early), `none` otherwise. -/
def fmtPrec : Option JType → Option Nat
  | some (JType.arr ts) => if ts.isEmpty then none else some 1
  | some (JType.obj k r p e u) =>
      if k == "union" then
        match u with
        | some ts => if ts.isEmpty then none else some 1
        | none => none
      else if k == "function" then
        if r.isSome then some 2 else none
      else if k == "array" then
        if e.isSome then some 3 else none
      else none
  | _ => none

theorem unionFmt_zero (ts : List JType) :
    unionFmt ts 0 = String.intercalate " | " (fmtList ts) := by
  rw [unionFmt.eq_def]
  simp

theorem unionFmt_ctx (ts : List JType) (ctx : Nat) :
    unionFmt ts ctx =
      if ts.isEmpty then unionFmt ts 0
      else if 1 < ctx then "(" ++ unionFmt ts 0 ++ ")" else unionFmt ts 0 := by
  rw [unionFmt.eq_def, unionFmt_zero]

/-- **C6**.  `formatType` on the nested array-of-function example produces
exactly the string from the specification, and in general a type is
parenthesized exactly when its own precedence tier (`fmtPrec`) is strictly
lower than the context precedence (with tiers: union 1, function return 2,
array suffix 3; kinds with no operator never parenthesize), for every context
the code can supply (0–3). -/
theorem c6_formatType_precedence :
    formatType (some (.obj "array" none none
        (some (.obj "function" (some (.arr [.str "number", .str "string"]))
          (some [(none, some (.arr [.str "string", .str "null"]))]) none none)) none)) 0
      = "(function(:string | null): (number | string))[]" ∧
    (∀ (t : Option JType) (ctx : Nat), ctx ≤ 3 →
      formatType t ctx =
        match fmtPrec t with
        | some pr => if pr < ctx then "(" ++ formatType t 0 ++ ")" else formatType t 0
        | none => formatType t 0) := by
  constructor
  · simp [formatType, fmtObj, fmtUnionObj, fmtFn, fmtParamsPart, fmtArr, fmtParams,
      formatParam, unionFmt, fmtList, optStrTruthy, jsTruthyO, jsTruthy, String.intercalate]
    try rfl
  · intro t ctx hctx
    match t with
    | none => simp [formatType, fmtPrec]
    | some (JType.str k) => simp [formatType, fmtPrec]
    | some (JType.arr ts) =>
        rw [show formatType (some (JType.arr ts)) ctx = unionFmt ts ctx from by
          simp [formatType]]
        rw [show formatType (some (JType.arr ts)) 0 = unionFmt ts 0 from by
          simp [formatType]]
        rw [unionFmt_ctx]
        simp only [fmtPrec]
        by_cases h : ts.isEmpty <;> simp [h]
    | some (JType.obj k r p e u) =>
        rw [show formatType (some (JType.obj k r p e u)) ctx = fmtObj k r p e u ctx from by
          simp [formatType]]
        rw [show formatType (some (JType.obj k r p e u)) 0 = fmtObj k r p e u 0 from by
          simp [formatType]]
        by_cases hku : k = "union"
        · subst hku
          cases u with
          | none => simp [fmtObj, fmtUnionObj, fmtPrec]
          | some ts =>
              rw [show fmtObj "union" r p e (some ts) ctx = unionFmt ts ctx from by
                simp [fmtObj, fmtUnionObj]]
              rw [show fmtObj "union" r p e (some ts) 0 = unionFmt ts 0 from by
                simp [fmtObj, fmtUnionObj]]
              rw [unionFmt_ctx]
              by_cases h : ts.isEmpty <;> simp [fmtPrec, h]
        · by_cases hkf : k = "function"
          · subst hkf
            cases r with
            | none => simp [fmtObj, fmtFn, fmtPrec]
            | some rt => simp [fmtObj, fmtFn, fmtPrec]
          · by_cases hka : k = "array"
            · subst hka
              cases e with
              | none => simp [fmtObj, fmtArr, fmtPrec, hku]
              | some et =>
                  have h3 : ¬(3 : Nat) < ctx := by omega
                  simp [fmtObj, fmtArr, fmtPrec, hku, h3]
            · simp [fmtObj, fmtPrec, hku, hkf, hka]

/-- Witness for `c6_formatType_precedence`: the general part applied at the
union `number | string` in a function-return context (precedence 2) yields
the parenthesized rendering. -/
theorem c6_formatType_precedence_witness :
    formatType (some (.arr [.str "number", .str "string"])) 2
      = "(number | string)" := by
  have h := c6_formatType_precedence.2 (some (.arr [.str "number", .str "string"])) 2
    (by omega)
  rw [h]
  simp [fmtPrec, formatType, unionFmt, fmtList, String.intercalate]
  rfl

/-! ### Claim C2: the degenerate one-survivor branch of `union` -/

/-- `{kind:'function', returns:'number', params:[{type:'array'}]}` — not
self-assignable (its parameter type is the bare kind `'array'`), yet it
accepts the other two function types below. -/
def fnNumOfArray : JType :=
  .obj "function" (some (.str "number")) (some [(none, some (.str "array"))]) none none

/-- `{kind:'function', returns:'number', params:[{type:'any'}]}`. -/
def fnNumOfAny : JType :=
  .obj "function" (some (.str "number")) (some [(none, some (.str "any"))]) none none

/-- `{kind:'function', returns:'number', params:[{type:'object'}]}`. -/
def fnNumOfObject : JType :=
  .obj "function" (some (.str "number")) (some [(none, some (.str "object"))]) none none

/-- **C2** (failing input).  On the unions
`a = [fnNumOfArray, fnNumOfAny, fnNumOfObject]` and
`b = [fnNumOfObject, fnNumOfArray]` (with the shared members denoting shared
references), neither side absorbs the other, the pairwise merge deletes
`fnNumOfAny` and `fnNumOfObject` and leaves exactly one surviving member, and
`union` then executes `members.values().next()` — returning the iterator
result object `{value: …, done: false}` instead of the surviving alternative
itself, contradicting the claim (and the function doc, which promises a
`Type`).  The correct result per the claim would be `UnionRet.ty
fnNumOfArray`. -/
theorem c2_union_degenerate_iterator :
    unionMerge (getUnionTypes (some (.arr [fnNumOfArray, fnNumOfAny, fnNumOfObject])))
        (getUnionTypes (some (.arr [fnNumOfObject, fnNumOfArray]))) = [fnNumOfArray] ∧
    union (some (.arr [fnNumOfArray, fnNumOfAny, fnNumOfObject]))
        (some (.arr [fnNumOfObject, fnNumOfArray]))
      = UnionRet.iter (some fnNumOfArray) false ∧
    (∀ t : JType, UnionRet.iter (some fnNumOfArray) false ≠ UnionRet.ty t) := by
  refine ⟨?_, ?_, fun t => by simp⟩
  · simp [unionMerge, getUnionTypes, setOf, setAdd, setDelete, setHas, mergeB, mergePair,
      fnNumOfArray, fnNumOfAny, fnNumOfObject, isAssignable, targetSide, getKind,
      returnsOf, paramsOf, elementsOf, paramsAssign, jbeq, jbeqO, jbeqL, jbeqPO, jbeqPL,
      jbeqP, jbeqLO]
  · simp [union, jsTruthyO, jsTruthy, isUnion, getUnionTypes, unionMerge, setOf, setAdd,
      setDelete, setHas, mergeB, mergePair, fnNumOfArray, fnNumOfAny, fnNumOfObject,
      isAssignable, targetSide, allAssignFrom, anyAssignTo, getKind, returnsOf, paramsOf,
      elementsOf, paramsAssign, jbeq, jbeqO, jbeqL, jbeqPO, jbeqPL, jbeqP, jbeqLO]

/-! ### Claim C4: `toShorthand ∘ toCanonical` round trip -/

/-- The closed list of non-union kinds a representable type may carry
(spec section 3: `undefined, null, boolean, number, string, symbol, object,
function, array, union, any`; the `union` kind appears only in object form
with `anyOf`, or as a plain array in compact form, never as a bare kind
string). -/
def kindList : List String :=
  ["undefined", "null", "boolean", "number", "string", "symbol",
   "object", "function", "array", "any"]

mutual

/-- The representable Types of the spec (section 3), stated from the spec
text rather than the code: a bare kind string from the closed kind list, a
non-empty plain list of representable non-union alternatives (compact union
form), or a type object whose kind is from the list and which carries only
the fields its kind admits — `returns`/`params` for `function` (each
parameter has at least one of name and type), `elements` for `array`, and a
non-empty flattened `anyOf` for `union`. -/
def representable : JType → Bool
  | .str k => kindList.contains k
  | .arr ts => !ts.isEmpty && repList ts
  | .obj k r p e u =>
      if k == "union" then
        r.isNone && p.isNone && e.isNone &&
        (match u with
         | some ts => !ts.isEmpty && repList ts
         | none => false)
      else if k == "function" then
        e.isNone && u.isNone &&
        (match r with | some rt => representable rt | none => true) &&
        (match p with | some ps => repParams ps | none => true)
      else if k == "array" then
        r.isNone && p.isNone && u.isNone &&
        (match e with | some et => representable et | none => true)
      else
        kindList.contains k && r.isNone && p.isNone && e.isNone && u.isNone
termination_by t => sizeOf t
decreasing_by all_goals (simp_wf <;> (first | omega | (have h1 := sizeOf_opos u; omega) | (have h1 := sizeOf_opos p; omega)))

/-- Alternatives of a union: representable and not themselves unions
(the spec requires the alternative list to be flattened). -/
def repList : List JType → Bool
  | [] => true
  | t :: ts => representable t && !isUnion (some t) && repList ts
termination_by ts => sizeOf ts
decreasing_by all_goals (simp_wf <;> (first | omega | (have h1 := sizeOf_lpos ts; omega)))

/-- Parameters: at least one of name and type present, and a present type
is representable. -/
def repParams : List JParam → Bool
  | [] => true
  | (n, ty) :: ps =>
      (n.isSome || ty.isSome) &&
      (match ty with | some t => representable t | none => true) &&
      repParams ps
termination_by ps => sizeOf ps
decreasing_by all_goals (simp_wf <;> (first | omega | (have h1 := sizeOf_lpos ps; omega) | (have h1 := sizeOf_opos n; omega)))

end

theorem jbeq_collapse (a b : JType) : (if jbeq a b then b else a) = a := by
  by_cases h : jbeq a b
  · rw [if_pos h, (jbeq_iff a b).mp h]
  · rw [if_neg h]

theorem jbeqL_collapse (a b : List JType) : (if jbeqL a b then b else a) = a := by
  by_cases h : jbeqL a b
  · rw [if_pos h, (jbeqL_iff a b).mp h]
  · rw [if_neg h]

theorem mapIfChangedP_id (ps : List JParam) : mapIfChangedP ps = ps := by
  have hmap : List.map transformParam ps = ps := List.map_id ps
  simp [mapIfChangedP, hmap, jbeqPL_self]

/-- The target property of the round trip: canonicalization succeeds and
yields a truthy (object) value, both the original and the canonical form
convert to shorthand without error, and they yield the same shorthand
value. -/
def RoundTrips (t : JType) : Prop :=
  ∃ c s, toCanonicalT t = .ok c ∧ jsTruthy c = true ∧
    toShorthandT t = .ok s ∧ toShorthandT c = .ok s

def RoundTripsL (ts : List JType) : Prop :=
  ∃ cs ss, toCanonicalL ts = .ok cs ∧ toShorthandL ts = .ok ss ∧ toShorthandL cs = .ok ss

theorem repList_mem : ∀ ts, repList ts = true → ∀ t ∈ ts, representable t = true := by
  intro ts
  induction ts with
  | nil => intro _ t ht; exact absurd ht (List.not_mem_nil t)
  | cons t0 ts ih =>
      intro h t ht
      rw [repList.eq_def] at h
      dsimp only at h
      simp only [Bool.and_eq_true] at h
      rcases List.mem_cons.mp ht with hEq | ht2
      · rw [hEq]; exact h.1.1
      · exact ih h.2 t ht2

theorem roundTripsL_of_mem : ∀ ts, (∀ t ∈ ts, RoundTrips t) → RoundTripsL ts := by
  intro ts
  induction ts with
  | nil =>
      intro _
      exact ⟨[], [], by simp [toCanonicalL, pure, Except.pure], by simp [toShorthandL, pure, Except.pure], by simp [toShorthandL, pure, Except.pure]⟩
  | cons t0 ts ih =>
      intro h
      obtain ⟨c, s, hc, _, hs, hcs⟩ := h t0 (List.mem_cons_self t0 ts)
      obtain ⟨cs, ss, hcL, hsL, hcsL⟩ := ih fun t ht => h t (List.mem_cons_of_mem t0 ht)
      refine ⟨c :: cs, s :: ss, ?_, ?_, ?_⟩
      · simp [toCanonicalL, hc, hcL, Bind.bind, Except.bind, pure, Except.pure]
      · simp [toShorthandL, hs, hsL, Bind.bind, Except.bind, pure, Except.pure]
      · simp [toShorthandL, hcs, hcsL, Bind.bind, Except.bind, pure, Except.pure]

theorem kindList_props (k : String) (h : k ∈ kindList) :
    k ≠ "" ∧ k ≠ "union" := by
  simp [kindList] at h
  rcases h with rfl | rfl | rfl | rfl | rfl | rfl | rfl | rfl | rfl | rfl <;>
    exact ⟨by decide, by decide⟩

theorem representable_truthy (t : JType) (h : representable t = true) :
    jsTruthy t = true := by
  cases t with
  | str k =>
      rw [representable.eq_def] at h
      dsimp only at h
      simp at h
      simp only [jsTruthy, decide_eq_true_eq]
      exact (kindList_props k h).1
  | arr ts => simp [jsTruthy]
  | obj k r p e u => simp [jsTruthy]

/-- The `params` computed by `transformFunction` is always the original
`params` value (parameter objects pass through `fn` unchanged). -/
theorem paramsId (p : Option (List JParam)) :
    (match p with
     | none => none
     | some ps => some (mapIfChangedP ps)) = p := by
  cases p <;> simp [mapIfChangedP_id]

theorem transformFunctionC_eval (k : String) (rt rc : JType)
    (p : Option (List JParam)) (e : Option JType) (u : Option (List JType))
    (htr : jsTruthy rt = true) (hrc : toCanonicalT rt = .ok rc) :
    transformFunctionC k (some rt) p e u = .ok (.obj k (some rc) p e u) := by
  cases hbeq : jbeq rc rt with
  | true =>
      have hEq := (jbeq_iff rc rt).mp hbeq
      subst hEq
      rw [transformFunctionC.eq_def]
      simp [htr, hrc, paramsId, jbeqPO_self, jbeqO,
        jbeq_self, Bind.bind, Except.bind, Functor.map, Except.map, pure,
        Except.pure]
  | false =>
      rw [transformFunctionC.eq_def]
      simp [htr, hrc, paramsId, jbeqPO_self, jbeqO,
        hbeq, Bind.bind, Except.bind, Functor.map, Except.map, pure,
        Except.pure]

theorem transformFunctionC_none (k : String) (p : Option (List JParam))
    (e : Option JType) (u : Option (List JType)) :
    transformFunctionC k none p e u = .ok (.obj k none p e u) := by
  rw [transformFunctionC.eq_def]
  simp [paramsId, jbeqPO_self, jbeqO, Bind.bind,
    Except.bind, pure, Except.pure]

theorem transformFunctionS_eval (k : String) (rt rs : JType)
    (p : Option (List JParam)) (e : Option JType) (u : Option (List JType))
    (htr : jsTruthy rt = true) (hrs : toShorthandT rt = .ok rs) :
    transformFunctionS k (some rt) p e u = .ok (.obj k (some rs) p e u) := by
  cases hbeq : jbeq rs rt with
  | true =>
      have hEq := (jbeq_iff rs rt).mp hbeq
      subst hEq
      rw [transformFunctionS.eq_def]
      simp [htr, hrs, paramsId, jbeqPO_self, jbeqO,
        jbeq_self, Bind.bind, Except.bind, Functor.map, Except.map, pure,
        Except.pure]
  | false =>
      rw [transformFunctionS.eq_def]
      simp [htr, hrs, paramsId, jbeqPO_self, jbeqO,
        hbeq, Bind.bind, Except.bind, Functor.map, Except.map, pure,
        Except.pure]

theorem transformFunctionS_none (k : String) (p : Option (List JParam))
    (e : Option JType) (u : Option (List JType)) :
    transformFunctionS k none p e u = .ok (.obj k none p e u) := by
  rw [transformFunctionS.eq_def]
  simp [paramsId, jbeqPO_self, jbeqO, Bind.bind,
    Except.bind, pure, Except.pure]

theorem transformArrayC_eval (k : String) (et ec : JType)
    (r : Option JType) (p : Option (List JParam)) (u : Option (List JType))
    (htr : jsTruthy et = true) (hec : toCanonicalT et = .ok ec) :
    transformArrayC k r p (some et) u = .ok (.obj k r p (some ec) u) := by
  cases hbeq : jbeq ec et with
  | true =>
      have hEq := (jbeq_iff ec et).mp hbeq
      subst hEq
      simp [transformArrayC, htr, hec, jbeq_self, Bind.bind, Except.bind,
        pure, Except.pure]
  | false =>
      simp [transformArrayC, htr, hec, hbeq, Bind.bind, Except.bind, pure,
        Except.pure]

theorem transformArrayS_eval (k : String) (et es : JType)
    (r : Option JType) (p : Option (List JParam)) (u : Option (List JType))
    (htr : jsTruthy et = true) (hes : toShorthandT et = .ok es) :
    transformArrayS k r p (some et) u = .ok (.obj k r p (some es) u) := by
  cases hbeq : jbeq es et with
  | true =>
      have hEq := (jbeq_iff es et).mp hbeq
      subst hEq
      simp [transformArrayS, htr, hes, jbeq_self, Bind.bind, Except.bind,
        pure, Except.pure]
  | false =>
      simp [transformArrayS, htr, hes, hbeq, Bind.bind, Except.bind, pure,
        Except.pure]

theorem transformUnionC_eval (k : String) (r : Option JType)
    (p : Option (List JParam)) (e : Option JType) (ts cs : List JType)
    (hcs : toCanonicalL ts = .ok cs) :
    transformUnionC k r p e (some ts) = .ok (.obj k r p e (some cs)) := by
  cases hbeq : jbeqL cs ts with
  | true =>
      have hEq := (jbeqL_iff cs ts).mp hbeq
      subst hEq
      simp [transformUnionC, hcs, jbeqL_self, Bind.bind, Except.bind, pure,
        Except.pure]
  | false =>
      simp [transformUnionC, hcs, hbeq, Bind.bind, Except.bind, pure,
        Except.pure]

theorem toShorthandT_bare (k : String) (hk : k ≠ "") (hu : k ≠ "union") :
    toShorthandT (.obj k none none none none) = .ok (.str k) := by
  by_cases hf : k = "function"
  · subst hf
    simp [toShorthandT, jsTruthyO, pTruthy, pure, Except.pure]
  · by_cases ha : k = "array"
    · subst ha
      simp [toShorthandT, jsTruthyO, pure, Except.pure]
    · simp [toShorthandT, hk, hu, hf, ha, pure, Except.pure]

theorem toShorthandT_union (r : Option JType) (p : Option (List JParam))
    (e : Option JType) (ts ss : List JType)
    (hss : toShorthandL ts = .ok ss) :
    toShorthandT (.obj "union" r p e (some ts)) = .ok (.arr ss) := by
  simp [toShorthandT, hss, jbeqL_collapse, Bind.bind, Except.bind, pure,
    Except.pure]

theorem toShorthandT_arrL (ts ss : List JType)
    (hss : toShorthandL ts = .ok ss) :
    toShorthandT (.arr ts) = .ok (.arr ss) := by
  simp [toShorthandT, hss, jbeqL_collapse, Bind.bind, Except.bind, pure,
    Except.pure]

theorem toShorthandT_fn_ret (rt rs : JType) (p : Option (List JParam))
    (e : Option JType) (u : Option (List JType))
    (htr : jsTruthy rt = true) (hrs : toShorthandT rt = .ok rs) :
    toShorthandT (.obj "function" (some rt) p e u)
      = .ok (.obj "function" (some rs) p e u) := by
  have h2 := transformFunctionS_eval "function" rt rs p e u htr hrs
  rw [toShorthandT.eq_def]
  simp [jsTruthyO, htr, h2]

theorem toShorthandT_fn_params (ps : List JParam) (e : Option JType)
    (u : Option (List JType)) :
    toShorthandT (.obj "function" none (some ps) e u)
      = .ok (.obj "function" none (some ps) e u) := by
  have h2 := transformFunctionS_none "function" (some ps) e u
  rw [toShorthandT.eq_def]
  simp [jsTruthyO, pTruthy, h2]

theorem toShorthandT_arr_elem (et es : JType) (r : Option JType)
    (p : Option (List JParam)) (u : Option (List JType))
    (htr : jsTruthy et = true) (hes : toShorthandT et = .ok es) :
    toShorthandT (.obj "array" r p (some et) u)
      = .ok (.obj "array" r p (some es) u) := by
  have h2 := transformArrayS_eval "array" et es r p u htr hes
  rw [toShorthandT.eq_def]
  simp [jsTruthyO, htr, h2]

/-- Round trip by strong induction on the size of the type: every
representable type canonicalizes successfully and has the same shorthand
form before and after canonicalization. -/
theorem roundTrip_aux : ∀ n t, sizeOf t ≤ n → representable t = true → RoundTrips t := by
  intro n
  induction n with
  | zero =>
      intro t hsz _
      have := sizeOf_tpos t
      omega
  | succ n ih =>
      intro t hsz hrep
      cases t with
      | str k =>
          rw [representable.eq_def] at hrep
          dsimp only at hrep
          simp at hrep
          obtain ⟨hk1, hk2⟩ := kindList_props k hrep
          refine ⟨.obj k none none none none, .str k, ?_, ?_, ?_, ?_⟩
          · rw [toCanonicalT.eq_def]
            simp [pure, Except.pure]
          · simp [jsTruthy]
          · rw [toShorthandT.eq_def]
            simp [pure, Except.pure]
          · exact toShorthandT_bare k hk1 hk2
      | arr ts =>
          rw [representable.eq_def] at hrep
          dsimp only at hrep
          simp only [Bool.and_eq_true] at hrep
          have hmem : ∀ x ∈ ts, RoundTrips x := by
            intro x hx
            have hlt := List.sizeOf_lt_of_mem hx
            have hszx : sizeOf x ≤ n := by
              simp_arith at hsz
              omega
            exact ih x hszx (repList_mem ts hrep.2 x hx)
          obtain ⟨cs, ss, hcL, hsL, hcsL⟩ := roundTripsL_of_mem ts hmem
          refine ⟨.obj "union" none none none (some cs), .arr ss, ?_, ?_, ?_, ?_⟩
          · rw [toCanonicalT.eq_def]
            simp [hcL, Bind.bind, Except.bind, pure, Except.pure]
          · simp [jsTruthy]
          · exact toShorthandT_arrL ts ss hsL
          · exact toShorthandT_union none none none cs ss hcsL
      | obj k r p e u =>
          rw [representable.eq_def] at hrep
          dsimp only at hrep
          by_cases hku : k = "union"
          · subst hku
            cases u with
            | none => simp at hrep
            | some ts =>
                simp at hrep
                obtain ⟨⟨⟨hr, hp⟩, he⟩, hne, hts⟩ := hrep
                subst hr hp he
                have hmem : ∀ x ∈ ts, RoundTrips x := by
                  intro x hx
                  have hlt := List.sizeOf_lt_of_mem hx
                  have hszx : sizeOf x ≤ n := by
                    simp_arith at hsz
                    omega
                  exact ih x hszx (repList_mem ts hts x hx)
                obtain ⟨cs, ss, hcL, hsL, hcsL⟩ := roundTripsL_of_mem ts hmem
                refine ⟨.obj "union" none none none (some cs), .arr ss, ?_, ?_, ?_, ?_⟩
                · rw [toCanonicalT.eq_def]
                  simpa using transformUnionC_eval "union" none none none ts cs hcL
                · simp [jsTruthy]
                · exact toShorthandT_union none none none ts ss hsL
                · exact toShorthandT_union none none none cs ss hcsL
          · by_cases hkf : k = "function"
            · subst hkf
              cases r with
              | none =>
                  simp at hrep
                  obtain ⟨⟨he, hu2⟩, _⟩ := hrep
                  subst he hu2
                  cases p with
                  | none =>
                      refine ⟨.obj "function" none none none none, .str "function", ?_, ?_, ?_, ?_⟩
                      · rw [toCanonicalT.eq_def]
                        simpa using transformFunctionC_none "function" none none none
                      · simp [jsTruthy]
                      · exact toShorthandT_bare "function" (by decide) (by decide)
                      · exact toShorthandT_bare "function" (by decide) (by decide)
                  | some ps =>
                      refine ⟨.obj "function" none (some ps) none none,
                          .obj "function" none (some ps) none none, ?_, ?_, ?_, ?_⟩
                      · rw [toCanonicalT.eq_def]
                        simpa using transformFunctionC_none "function" (some ps) none none
                      · simp [jsTruthy]
                      · exact toShorthandT_fn_params ps none none
                      · exact toShorthandT_fn_params ps none none
              | some rt =>
                  simp at hrep
                  obtain ⟨⟨⟨he, hu2⟩, hr⟩, _⟩ := hrep
                  subst he hu2
                  have hszr : sizeOf rt ≤ n := by
                    simp_arith at hsz
                    omega
                  obtain ⟨rc, rs, hrc, hrcT, hrs, hrcs⟩ := ih rt hszr hr
                  have htr : jsTruthy rt = true := representable_truthy rt hr
                  refine ⟨.obj "function" (some rc) p none none,
                      .obj "function" (some rs) p none none, ?_, ?_, ?_, ?_⟩
                  · rw [toCanonicalT.eq_def]
                    simpa using transformFunctionC_eval "function" rt rc p none none htr hrc
                  · simp [jsTruthy]
                  · exact toShorthandT_fn_ret rt rs p none none htr hrs
                  · exact toShorthandT_fn_ret rc rs p none none hrcT hrcs
            · by_cases hka : k = "array"
              · subst hka
                cases e with
                | none =>
                    simp at hrep
                    obtain ⟨⟨hr, hp⟩, hu2⟩ := hrep
                    subst hr hp hu2
                    refine ⟨.obj "array" none none none none, .str "array", ?_, ?_, ?_, ?_⟩
                    · rw [toCanonicalT.eq_def]
                      simp [transformArrayC, pure, Except.pure]
                    · simp [jsTruthy]
                    · exact toShorthandT_bare "array" (by decide) (by decide)
                    · exact toShorthandT_bare "array" (by decide) (by decide)
                | some et =>
                    simp at hrep
                    obtain ⟨⟨⟨hr, hp⟩, hu2⟩, he⟩ := hrep
                    subst hr hp hu2
                    have hsze : sizeOf et ≤ n := by
                      simp_arith at hsz
                      omega
                    obtain ⟨ec, es, hec, hecT, hes, hecs⟩ := ih et hsze he
                    have htr : jsTruthy et = true := representable_truthy et he
                    refine ⟨.obj "array" none none (some ec) none,
                        .obj "array" none none (some es) none, ?_, ?_, ?_, ?_⟩
                    · rw [toCanonicalT.eq_def]
                      simpa using transformArrayC_eval "array" et ec none none none htr hec
                    · simp [jsTruthy]
                    · exact toShorthandT_arr_elem et es none none none htr hes
                    · exact toShorthandT_arr_elem ec es none none none hecT hecs
              · simp [hku, hkf, hka] at hrep
                obtain ⟨⟨⟨⟨hcont, hr⟩, hp⟩, he⟩, hu2⟩ := hrep
                subst hr hp he hu2
                obtain ⟨hk1, hk2⟩ := kindList_props k hcont
                refine ⟨.obj k none none none none, .str k, ?_, ?_, ?_, ?_⟩
                · rw [toCanonicalT.eq_def]
                  simp [hku, hkf, hka, pure, Except.pure]
                · simp [jsTruthy]
                · exact toShorthandT_bare k hk1 hk2
                · exact toShorthandT_bare k hk1 hk2

/-- C4: for every representable Type `t` (spec section 3),
`toShorthand (toCanonical t)` terminates without error and is
observationally equivalent to `t` up to shorthand normal form: it equals
`toShorthand t`, which itself succeeds.  This covers function types
carrying `params` and `returns` as well as nested unions and arrays. -/
theorem c4_round_trip (t : JType) (h : representable t = true) :
    (toCanonical (some t) >>= toShorthand) = toShorthand (some t) ∧
    ∃ s, toShorthand (some t) = Except.ok (some s) := by
  obtain ⟨c, s, hc, _, hs, hcs⟩ := roundTrip_aux (sizeOf t) t (le_refl _) h
  constructor
  · simp [toCanonical, toShorthand, hc, hs, hcs, Bind.bind, Except.bind,
      Functor.map, Except.map]
  · exact ⟨s, by simp [toShorthand, hs, Functor.map, Except.map]⟩

theorem c4_round_trip_witness :
    representable (.obj "function"
        (some (.arr [.str "number", .str "string"]))
        (some [(some "x", some (.str "string")), (none, some (.str "any"))])
        none none) = true ∧
    ((toCanonical (some (.obj "function"
        (some (.arr [.str "number", .str "string"]))
        (some [(some "x", some (.str "string")), (none, some (.str "any"))])
        none none)) >>= toShorthand)
      = toShorthand (some (.obj "function"
        (some (.arr [.str "number", .str "string"]))
        (some [(some "x", some (.str "string")), (none, some (.str "any"))])
        none none)) ∧
    ∃ s, toShorthand (some (.obj "function"
        (some (.arr [.str "number", .str "string"]))
        (some [(some "x", some (.str "string")), (none, some (.str "any"))])
        none none)) = Except.ok (some s)) :=
  ⟨by simp [representable, repList, repParams, isUnion, kindList],
   c4_round_trip _ (by simp [representable, repList, repParams, isUnion, kindList])⟩

/-! ### Claim C8: `Scope.addOwnMember` and the member map

The `Scope` constructor (scope module) initialises `members` to a plain
object literal `{}`, which inherits from `Object.prototype`.  A member map
is embedded as an insertion-ordered association list of own properties; the
JavaScript `in` operator additionally consults the prototype chain, so it
also reports the properties of `Object.prototype`. -/

/-- The property names every plain object inherits from `Object.prototype`
(visible to the `in` operator used by `addOwnMember`). -/
def objectProtoProps : List String :=
  ["constructor", "hasOwnProperty", "isPrototypeOf",
   "propertyIsEnumerable", "toLocaleString", "toString", "valueOf",
   "__proto__", "__defineGetter__", "__defineSetter__",
   "__lookupGetter__", "__lookupSetter__"]

/-- `name in this.members` for a plain-object member map: an own property or
an inherited `Object.prototype` property. -/
def jsInObj {α : Type} (name : String) (m : List (String × α)) : Bool :=
  (m.any fun kv => kv.1 == name) || objectProtoProps.contains name

/-- `this.members[name] = value`: overwrite an existing own key in place,
otherwise append a new own key (JavaScript property insertion order). -/
def recordSet {α : Type} (name : String) (v : α) (m : List (String × α)) :
    List (String × α) :=
  if m.any (fun kv => kv.1 == name) then
    m.map fun kv => if kv.1 == name then (name, v) else kv
  else m ++ [(name, v)]

/-- `Scope.addOwnMember(name, value)` (scope module lines 199-204): throws
when `name in this.members`, otherwise stores and returns `value`.  The
method touches only the scope's own member map, which is passed and
returned explicitly. -/
def addOwnMember {α : Type} (name : String) (v : α) (m : List (String × α)) :
    Except String (α × List (String × α)) :=
  if jsInObj name m then
    Except.error ("\x27" ++ name ++ "\x27 already defined")
  else Except.ok (v, recordSet name v m)

/-- C8: `addOwnMember` is claimed to throw exactly when the name is already
present in the scope's own member map.  The code instead tests membership
with `name in this.members` on a plain object, which also sees
`Object.prototype` properties: on a fresh scope whose own member map is
empty, `addOwnMember "toString"` throws even though no member named
`toString` was ever added, while an ordinary name is stored and returned as
claimed. -/
theorem c8_addOwnMember_prototype_leak :
    addOwnMember "toString" (42 : Nat) []
      = Except.error "\x27toString\x27 already defined" ∧
    (([] : List (String × Nat)).any fun kv => kv.1 == "toString") = false ∧
    addOwnMember "x" (42 : Nat) [] = Except.ok (42, [("x", 42)]) := by
  refine ⟨?_, rfl, ?_⟩ <;> rfl

/-! ### Claims C5/C10: the analyzer on logical expressions

A small fragment of `analyze.mjs` sufficient for the `LogicalExpression`,
`Literal` and `Identifier` visitors: runtime values, analysis records, a
scope chain (innermost frame first, root last) and the visitor itself.
The analyzer mutates scopes; the embedding threads the scope chain
explicitly. -/

/-- Literal runtime values (`null`, booleans, numbers, strings; `undefined`
for completeness). -/
inductive JSVal where
  | undef
  | nullv
  | boolean (b : Bool)
  | number (n : Int)
  | string (s : String)
deriving DecidableEq

/-- JavaScript truthiness of a runtime value. -/
def jsTruthyVal : JSVal → Bool
  | .undef => false
  | .nullv => false
  | .boolean b => b
  | .number n => !(n == 0)
  | .string s => !(s == "")

/-- `kindOf(value)` (types.js line 96) restricted to literal values:
`null` maps to `'null'`, otherwise `typeof value`. -/
def kindOfVal : JSVal → String
  | .nullv => "null"
  | .undef => "undefined"
  | .boolean _ => "boolean"
  | .number _ => "number"
  | .string _ => "string"

inductive LogicOp where
  | and
  | or
deriving DecidableEq

/-- The constant-folding operator passed to `evaluate`:
`(l, r) => l && r` and `(l, r) => l || r` on runtime values. -/
def opVal : LogicOp → JSVal → JSVal → JSVal
  | .and, l, r => if jsTruthyVal l then r else l
  | .or, l, r => if jsTruthyVal l then l else r

/-- An analysis record as built by the modelled visitors: optional `name`
(scope members), optional `type` and optional `value`; an absent `value`
key is distinguished from a present `undefined` value (the code tests
`\x27value\x27 in info`). -/
structure VInfo where
  name : Option String := none
  type : Option JType := none
  value : Option JSVal := none
deriving DecidableEq

/-- A value produced by visiting an expression: an analysis record, or an
`Object.prototype` method observed when a member read on a plain-object
member map falls through to the prototype chain (see C8). -/
inductive AVal where
  | info (i : VInfo)
  | protoFn (name : String)
deriving DecidableEq

/-- `\x27value\x27 in info`: a function object has no `value` property. -/
def hasValueP : AVal → Bool
  | .info i => i.value.isSome
  | .protoFn _ => false

/-- `info.value` (reading an absent property yields `undefined`). -/
def getValP : AVal → JSVal
  | .info i => i.value.getD .undef
  | .protoFn _ => ( .undef : JSVal)

/-- `info.type` (a function object has no `type` property). -/
def typeP : AVal → Option JType
  | .info i => i.type
  | .protoFn _ => none

/-- The `shortOp` predicates of `LogicalExpression` (analyze.mjs lines
536-541): for `||`, `l => \x27value\x27 in l ? !!l.value : isTruthy(l.type)`;
for `&&`, `l => \x27value\x27 in l ? !l.value : isFalsy(l.type)`.  The known
value, when present, takes precedence over the type. -/
def shortOpV : LogicOp → AVal → Bool
  | .or, a => if hasValueP a then jsTruthyVal (getValP a) else isTruthy (typeP a)
  | .and, a => if hasValueP a then !jsTruthyVal (getValP a) else isFalsy (typeP a)

/-- The non-short-circuit branch of `evaluate` (analyze.mjs lines 527-532):
`unionInfo` builds a fresh record whose `type` is `union` of both types
when both are truthy, and the constant value is attached when both operand
records carry a `value` key.  When `union` returns the leaked
IteratorResult object (see C2) the resulting record holds a value outside
the Type grammar; the model stops there with an error rather than
fabricate a Type. -/
def combineV (op : LogicOp) : Option AVal → Option AVal → Except String (Option AVal)
  | some la, some rb =>
      let v : Option JSVal :=
        if hasValueP la && hasValueP rb then
          some (opVal op (getValP la) (getValP rb))
        else none
      if jsTruthyO (typeP la) && jsTruthyO (typeP rb) then
        match union (typeP la) (typeP rb) with
        | .ty t => .ok (some (.info ⟨none, some t, v⟩))
        | .undef => .ok (some (.info ⟨none, none, v⟩))
        | .iter _ _ => .error "union returned an IteratorResult object"
      else .ok (some (.info ⟨none, none, v⟩))
  | _, _ => .ok none

/-- `evaluate(op, shortOp)` (analyze.mjs lines 525-533): short-circuit to
the left record when it exists and `shortOp` accepts it, otherwise
combine. -/
def logicalEvalV (op : LogicOp) (l r : Option AVal) : Except String (Option AVal) :=
  match l with
  | some la => if shortOpV op la then .ok (some la) else combineV op (some la) r
  | none => combineV op none r

/-- Expressions of the modelled fragment. -/
inductive Expr where
  | lit (v : JSVal)
  | ident (name : String)
  | logical (op : LogicOp) (l r : Expr)

/-- A scope frame: the own member map. -/
abbrev Frame := List (String × VInfo)

/-- A member read `scope.members[name]` on one frame: an own property, or
an inherited `Object.prototype` method (bracket reads also consult the
prototype chain). -/
def findInFrame (name : String) (m : Frame) : Option AVal :=
  match m.find? (fun kv => kv.1 == name) with
  | some kv => some (.info kv.2)
  | none =>
      if objectProtoProps.contains name then some (.protoFn name) else none

/-- `Scope.findMember(name)`: the nearest frame whose member read yields a
truthy value (all stored records and inherited methods are truthy
objects). -/
def findMemberC (name : String) : List Frame → Option AVal
  | [] => none
  | m :: rest =>
      match findInFrame name m with
      | some v => some v
      | none => findMemberC name rest

/-- Replace the last (root) frame of a chain. -/
def setLast {α : Type} : List α → α → List α
  | [], x => [x]
  | [_], x => [x]
  | y :: rest, x => y :: setLast rest x

/-- The `Identifier` visitor (analyze.mjs lines 39-61) for a value
reference (no `declContext`): resolve through the chain; an unresolved
reference is defined globally via `scope.getRoot().addOwnMemb\x65r(name,
{name})`, which can throw (see C8). -/
def visitIdent (name : String) (chain : List Frame) :
    Except String (Option AVal × List Frame) :=
  match findMemberC name chain with
  | some v => .ok (some v, chain)
  | none =>
      match addOwnMember name ({ name := some name } : VInfo)
          (chain.getLast?.getD []) with
      | .ok (v, m2) => .ok (some (.info v), setLast chain m2)
      | .error e => .error e

/-- The modelled `visit` (analyze.mjs): `Literal` yields
`{type: kindOf(value), value}`; `Identifier` as above; `LogicalExpression`
(lines 520-543) visits the left then the right operand unconditionally and
only then applies `evaluate`. -/
def visitA : Expr → List Frame → Except String (Option AVal × List Frame)
  | .lit v, chain =>
      .ok (some (.info ⟨none, some (.str (kindOfVal v)), some v⟩), chain)
  | .ident name, chain => visitIdent name chain
  | .logical op le re, chain => do
      let (li, c1) ← visitA le chain
      let (ri, c2) ← visitA re c1
      let out ← logicalEvalV op li ri
      pure (out, c2)

/-- The claim's condition for the left analysis statically determining the
result, as a disjunction: a known constant value of the deciding
truthiness, or an always-falsy (for `&&`) / always-truthy (for `||`)
type. -/
def claimDet : LogicOp → AVal → Bool
  | .and, a => (hasValueP a && !jsTruthyVal (getValP a)) || isFalsy (typeP a)
  | .or, a => (hasValueP a && jsTruthyVal (getValP a)) || isTruthy (typeP a)

/-- Consistency of an analysis record: a known constant value never
contradicts an always-falsy or always-truthy type.  Every record the
analyzer derives for an actual expression satisfies this (value and type
are computed from the same evaluation). -/
def consistentA (a : AVal) : Bool :=
  !hasValueP a ||
    ((!isFalsy (typeP a) || !jsTruthyVal (getValP a)) &&
     (!isTruthy (typeP a) || jsTruthyVal (getValP a)))

theorem shortOpV_claimDet (op : LogicOp) (la : AVal)
    (h : shortOpV op la = true) : claimDet op la = true := by
  cases op <;> simp only [shortOpV] at h <;> simp only [claimDet] <;>
    cases hv : hasValueP la <;> simp [hv] at h ⊢ <;> simp [h]

theorem claimDet_shortOpV (op : LogicOp) (la : AVal)
    (hcons : consistentA la = true) (h : claimDet op la = true) :
    shortOpV op la = true := by
  cases op <;> simp only [claimDet] at h <;> simp only [shortOpV] <;>
    cases hv : hasValueP la <;> simp [hv] at h ⊢
  case and.false => exact h
  case or.false => exact h
  case and.true =>
      rcases h with h | h
      · exact h
      · simp [consistentA, hv, h] at hcons
        exact hcons.1
  case or.true =>
      rcases h with h | h
      · exact h
      · simp [consistentA, hv, h] at hcons
        exact hcons.2

/-- C5: for a logical expression whose operand analyses are `l` and `r`
(with `l` consistent: its known value, if any, does not contradict an
always-falsy/always-truthy type), the combination performed by the
`LogicalExpression` visitor short-circuits to exactly the left analysis
when the left analysis statically determines the result — a known
constant value of deciding truthiness or a decisive type — and otherwise
builds a fresh record whose type is the `union` of the two types (when
both are known) and which carries a constant value exactly when both
operands do.  In particular the analysis of `null && x` in a fresh root
scope is `{type: \x27null\x27, value: null}`. -/
theorem c5_logical_short_circuit :
    (∀ (op : LogicOp) (la : AVal) (r : Option AVal),
      consistentA la = true →
      ((claimDet op la = true →
          logicalEvalV op (some la) r = Except.ok (some la)) ∧
       (claimDet op la = false → r = none →
          logicalEvalV op (some la) r = Except.ok none) ∧
       (∀ rb, claimDet op la = false → r = some rb →
          (∀ x d, union (typeP la) (typeP rb) ≠ UnionRet.iter x d) →
          logicalEvalV op (some la) r = Except.ok (some (AVal.info
            ⟨none,
             (if jsTruthyO (typeP la) && jsTruthyO (typeP rb) then
                match union (typeP la) (typeP rb) with
                | UnionRet.ty t => some t
                | _ => none
              else none),
             (if hasValueP la && hasValueP rb then
                some (opVal op (getValP la) (getValP rb))
              else none)⟩))))) ∧
    visitA (.logical .and (.lit .nullv) (.ident "x")) [[]]
      = Except.ok (some (.info ⟨none, some (.str "null"), some .nullv⟩),
          [[("x", ⟨some "x", none, none⟩)]]) := by
  constructor
  · intro op la r hcons
    refine ⟨?_, ?_, ?_⟩
    · intro hdet
      have hshort := claimDet_shortOpV op la hcons hdet
      simp [logicalEvalV, hshort]
    · intro hdet hr
      subst hr
      have hshort : shortOpV op la = false := by
        cases hs : shortOpV op la
        · rfl
        · rw [shortOpV_claimDet op la hs] at hdet
          exact absurd hdet (by simp)
      simp [logicalEvalV, hshort, combineV]
    · intro rb hdet hr hiter
      subst hr
      have hshort : shortOpV op la = false := by
        cases hs : shortOpV op la
        · rfl
        · rw [shortOpV_claimDet op la hs] at hdet
          exact absurd hdet (by simp)
      simp only [logicalEvalV, hshort, Bool.false_eq_true, if_false]
      simp only [combineV]
      by_cases hg : (jsTruthyO (typeP la) && jsTruthyO (typeP rb)) = true
      · rw [if_pos hg, if_pos hg]
        cases hU : union (typeP la) (typeP rb) with
        | ty t => simp
        | undef => simp
        | iter x d => exact absurd hU (hiter x d)
      · rw [if_neg hg, if_neg hg]
  · rfl

theorem c5_logical_short_circuit_witness :
    consistentA (AVal.info ⟨none, some (.str "null"), some .nullv⟩) = true ∧
    claimDet .and (AVal.info ⟨none, some (.str "null"), some .nullv⟩) = true ∧
    logicalEvalV .and
        (some (AVal.info ⟨none, some (.str "null"), some .nullv⟩))
        (some (.info ⟨some "x", none, none⟩))
      = Except.ok (some (AVal.info ⟨none, some (.str "null"), some .nullv⟩)) := by
  refine ⟨?_, rfl, ?_⟩
  · simp [consistentA, hasValueP, getValP, typeP, jsTruthyVal, isTruthy, getKind]
  · exact ((c5_logical_short_circuit.1 .and
      (AVal.info ⟨none, some (.str "null"), some .nullv⟩)
      (some (.info ⟨some "x", none, none⟩))
      (by simp [consistentA, hasValueP, getValP, typeP, jsTruthyVal, isTruthy, getKind])).1 rfl)

/-- C10: the `LogicalExpression` visitor visits the right operand
unconditionally, before `evaluate` decides anything, so all scope side
effects of the right operand occur even when the left operand
short-circuits the result: the analysis of `.logical op le re` threads the
scope chain through both operand visits and its final chain is the chain
after the right visit, whatever `evaluate` returns.  Concretely, analyzing
`null && x` in a fresh root scope yields the left analysis
`{type: \x27null\x27, value: null}`, yet the returned root scope owns a new
member `x` (which was absent before). -/
theorem c10_right_operand_always_visited :
    (∀ (op : LogicOp) (le re : Expr) (chain c1 c2 : List Frame)
       (li ri : Option AVal),
       visitA le chain = Except.ok (li, c1) →
       visitA re c1 = Except.ok (ri, c2) →
       visitA (.logical op le re) chain
         = match logicalEvalV op li ri with
           | Except.ok out => Except.ok (out, c2)
           | Except.error e => Except.error e) ∧
    (visitA (.logical .and (.lit .nullv) (.ident "x")) [[]]
       = Except.ok (some (.info ⟨none, some (.str "null"), some .nullv⟩),
           [[("x", ⟨some "x", none, none⟩)]]) ∧
     findInFrame "x" [("x", ⟨some "x", none, none⟩)]
       = some (.info ⟨some "x", none, none⟩) ∧
     findInFrame "x" [] = none) := by
  constructor
  · intro op le re chain c1 c2 li ri h1 h2
    simp only [visitA, h1, h2, Bind.bind, Except.bind]
    cases hv : logicalEvalV op li ri <;> simp [pure, Except.pure]
  · exact ⟨rfl, rfl, rfl⟩

theorem c10_right_operand_always_visited_witness :
    visitA (.lit .nullv) [[]]
      = Except.ok (some (.info ⟨none, some (.str "null"), some .nullv⟩), [[]]) ∧
    visitA (.ident "x") [[]]
      = Except.ok (some (.info ⟨some "x", none, none⟩),
          [[("x", ⟨some "x", none, none⟩)]]) ∧
    visitA (.logical .and (.lit .nullv) (.ident "x")) [[]]
      = match logicalEvalV .and
            (some (AVal.info ⟨none, some (.str "null"), some .nullv⟩))
            (some (AVal.info ⟨some "x", none, none⟩)) with
        | Except.ok out => Except.ok (out, [[("x", ⟨some "x", none, none⟩)]])
        | Except.error e => Except.error e :=
  ⟨rfl, rfl,
   c10_right_operand_always_visited.1 .and (.lit .nullv) (.ident "x")
     [[]] [[]] [[("x", ⟨some "x", none, none⟩)]]
     (some (.info ⟨none, some (.str "null"), some .nullv⟩))
     (some (.info ⟨some "x", none, none⟩)) rfl rfl⟩

/-! ### Claim C9: the walker entry hooks (walk module, `visit`)

The decision logic of one `visit` call: the before-hooks of the resolved
visitor types run least-specific first; the loop breaks when a hook
returns strictly `false`; a truthy return replaces the walker state.
Descent and the (reversed) after-hooks run unless the last executed
before-hook returned strictly `false`.  A hook return value is observed
only through `=== false` and truthiness, so it is abstracted to strictly
`false`, falsy-but-not-`false` (`undefined`, `null`, `0`, the empty
string), or a truthy replacement state. -/

/-- Walker states (abstract). -/
abbrev WState := Nat

/-- A before-hook result as observed by `visit`. -/
inductive HookRes where
  | rfalse
  | rfalsy
  | rstate (t : WState)
deriving DecidableEq

/-- Observable walker actions: descending into the subtree with a given
state, and invoking an after-hook with a given state. -/
inductive Ev where
  | descend (s : WState)
  | after (s : WState)
deriving DecidableEq

/-- The before-hook loop (walk module lines 28-37): `beforeResult` holds
the last executed hook result (`none` when no hook has run); `break` on
strictly `false`; truthy results replace the state. An entry of `none`
means no hook is registered for that visitor type. -/
def beforeLoop : List (Option (WState → HookRes)) → WState → Option HookRes →
    WState × Option HookRes
  | [], s, last => (s, last)
  | none :: rest, s, last => beforeLoop rest s last
  | some h :: rest, s, last =>
      match h s with
      | .rfalse => (s, some .rfalse)
      | .rfalsy => beforeLoop rest s (some .rfalsy)
      | .rstate t => beforeLoop rest t (some (.rstate t))

/-- The after-hook loop (walk module lines 47-55) over the reversed
visitor types: each registered hook is invoked with the current state and
a truthy return replaces the state for the remaining hooks. -/
def afterLoop : List (Option (WState → Option WState)) → WState → List Ev
  | [], _ => []
  | none :: rest, s => afterLoop rest s
  | some h :: rest, s => Ev.after s :: afterLoop rest ((h s).getD s)

/-- One `visit` call (walk module lines 13-61) on a node: run the
before-hooks; unless the last executed hook returned strictly `false`,
look up the walker (fatal when unregistered), descend with the current
state and run the after-hooks most-specific first. -/
def visitModel (bh : List (Option (WState → HookRes)))
    (ah : List (Option (WState → Option WState)))
    (walkerPresent : Bool) (s : WState) : Except String (List Ev) :=
  let p := beforeLoop bh s none
  if p.2 == some HookRes.rfalse then .ok []
  else if walkerPresent then .ok (Ev.descend p.1 :: afterLoop ah.reverse p.1)
  else .error "Unhandled AST node type"

/-- C9 counterexample: an entry hook returning a falsy value that is not
strictly `false` (`undefined`, `null`, `0`, `\x27\x27`) does not skip the
subtree: the walker still descends and still invokes the after-hooks,
whereas the claim predicts a skip (no descent, no exit hooks). -/
theorem c9_counterexample :
    visitModel [some fun _ => HookRes.rfalsy] [some fun t => some (t + 1)] true 0
      = Except.ok [Ev.descend 0, Ev.after 0] ∧
    Except.ok [Ev.descend 0, Ev.after 0] ≠ (Except.ok [] : Except String (List Ev)) := by
  exact ⟨rfl, by simp⟩

theorem beforeLoop_no_false : ∀ (bh : List (Option (WState → HookRes)))
    (s : WState) (last : Option HookRes),
    (∀ f, some f ∈ bh → ∀ t, f t ≠ HookRes.rfalse) →
    last ≠ some HookRes.rfalse →
    (beforeLoop bh s last).2 ≠ some HookRes.rfalse := by
  intro bh
  induction bh with
  | nil => intro s last _ hlast; exact hlast
  | cons f rest ih =>
      intro s last hno hlast
      cases f with
      | none =>
          exact ih s last (fun g hg => hno g (List.mem_cons_of_mem none hg)) hlast
      | some h =>
          simp only [beforeLoop]
          cases hres : h s with
          | rfalse => exact absurd hres (hno h (List.mem_cons_self _ rest) s)
          | rfalsy =>
              exact ih s (some HookRes.rfalsy)
                (fun g hg => hno g (List.mem_cons_of_mem _ hg)) (by simp)
          | rstate t =>
              exact ih t (some (HookRes.rstate t))
                (fun g hg => hno g (List.mem_cons_of_mem _ hg)) (by simp)

/-- C9 amended: skipping requires the entry hook to return strictly
`false`.  (1) When no registered entry hook ever returns strictly `false`
— in particular when hooks return other falsy values — the walker
descends with the state accumulated by the entry hooks and runs the
after-hooks on it.  (2) When the entry-hook loop ends on a strict `false`,
the subtree is skipped and no exit hook runs.  (3) A truthy replacement
state returned by an entry hook is threaded into the descent and into the
after-hooks. -/
theorem c9_skip_strictly_false :
    (∀ (bh : List (Option (WState → HookRes)))
       (ah : List (Option (WState → Option WState))) (s : WState),
       (∀ f, some f ∈ bh → ∀ t, f t ≠ HookRes.rfalse) →
       visitModel bh ah true s
         = Except.ok (Ev.descend (beforeLoop bh s none).1
             :: afterLoop ah.reverse (beforeLoop bh s none).1)) ∧
    (∀ bh ah wp (s s1 : WState),
       beforeLoop bh s none = (s1, some HookRes.rfalse) →
       visitModel bh ah wp s = Except.ok []) ∧
    (∀ (t : WState) ah (s : WState),
       visitModel [some fun _ => HookRes.rstate t] ah true s
         = Except.ok (Ev.descend t :: afterLoop ah.reverse t)) := by
  refine ⟨?_, ?_, ?_⟩
  · intro bh ah s hno
    have h2 := beforeLoop_no_false bh s none hno (by simp)
    simp only [visitModel]
    rw [if_neg (by simpa using h2)]
    simp
  · intro bh ah wp s s1 hb
    simp [visitModel, hb]
  · intro t ah s
    simp [visitModel, beforeLoop]

theorem c9_skip_strictly_false_witness :
    visitModel [some fun _ => HookRes.rfalsy, none] [some fun t => some (t + 1)] true 0
      = Except.ok (Ev.descend (beforeLoop [some fun _ => HookRes.rfalsy, none] 0 none).1
          :: afterLoop [some fun t => some (t + 1)].reverse
               (beforeLoop [some fun _ => HookRes.rfalsy, none] 0 none).1) ∧
    visitModel [some fun _ => HookRes.rfalse] [] true 5 = Except.ok [] ∧
    visitModel [some fun _ => HookRes.rstate 7] [some fun t => some (t + 1)] true 0
      = Except.ok (Ev.descend 7
          :: afterLoop [some fun t => some (t + 1)].reverse 7) :=
  ⟨c9_skip_strictly_false.1 [some fun _ => HookRes.rfalsy, none]
      [some fun t => some (t + 1)] 0
      (by
        intro f hf t
        simp at hf
        subst hf
        simp),
   c9_skip_strictly_false.2.1 [some fun _ => HookRes.rfalse] [] true 5 5 rfl,
   c9_skip_strictly_false.2.2 7 [some fun t => some (t + 1)] 0⟩

/-! ### Claim C7: the Formatter token buffer (`emitNewline`/`flush`)

The token buffer is a queue of `(text, kind)` pairs with kinds leading,
normal, trailing and space.  `emitNewline` repeatedly cuts physical lines:
it drops leading spaces, always takes the first normal token along with
its preceding leading tokens and its directly-following trailing tokens
(the mandatory unit), then scans forward accepting further normal tokens
while the running column stays within the margin — absorbing trailing
tokens directly after an accepted normal without a margin check — and cuts
at the last accepted position; at the end of the buffer everything up to
the last non-space token is accepted.  The embedding replaces the index
bookkeeping of the source (`lastWritePos`, `lastNonspacePos`, `pos`) by
accumulated segments: `acc` holds the tokens up to `lastWritePos`, `p1`
the non-space tokens written only at end-of-buffer (up to
`lastNonspacePos`), `p2` the pending spaces after `lastNonspacePos`; the
running column `col` counts the indent prefix plus every consumed token,
exactly as in the source. -/

inductive TKind where
  | leading
  | normal
  | trailing
  | space
deriving DecidableEq

abbrev Tok := String × TKind

/-- Total text width of a token list. -/
def widthL : List Tok → Nat
  | [] => 0
  | t :: r => t.1.length + widthL r

/-- Number of normal tokens in a list. -/
def normCount : List Tok → Nat
  | [] => 0
  | t :: r => (if t.2 == TKind.normal then 1 else 0) + normCount r

/-- Width of the shortest prefix containing every normal token (the width
of the line up to and including its last normal token; `0` when the line
has no normal token). -/
def wtln : List Tok → Nat
  | [] => 0
  | t :: r =>
      if normCount r = 0 then (if t.2 == TKind.normal then t.1.length else 0)
      else t.1.length + wtln r

/-- The last token, if any, is not a space. -/
def lastNotSpace : List Tok → Bool
  | [] => true
  | [t] => !(t.2 == TKind.space)
  | _ :: t :: r => lastNotSpace (t :: r)

/-- Phase 1 of `emitNewline` (the `while` loop at lines 68-76): consume
tokens until a non-trailing token follows an already-seen normal token;
`acc` collects tokens up to the last non-space consumed, `pend` the spaces
after it, `col` accumulates every consumed width. -/
def mandLoop : List Tok → Bool → List Tok → List Tok → Nat →
    List Tok × List Tok × List Tok × Nat
  | [], _, acc, pend, col => (acc, pend, [], col)
  | t :: rest, gotNormal, acc, pend, col =>
      if gotNormal && !(t.2 == TKind.trailing) then (acc, pend, t :: rest, col)
      else if t.2 == TKind.space then
        mandLoop rest gotNormal acc (pend ++ [t]) (col + t.1.length)
      else
        mandLoop rest (gotNormal || t.2 == TKind.normal)
          (acc ++ pend ++ [t]) [] (col + t.1.length)

/-- Phase 2 of `emitNewline` (the `while` loop at lines 80-97): a normal
token within the margin is accepted (advancing the cut past everything
pending), a trailing token directly after an accepted normal is absorbed
without a margin check, a normal token beyond the margin stops the line
(`done = false`), and the end of the buffer accepts everything up to the
last non-space token (`done = true`).  Returns the line, the remaining
buffer and the `done` flag. -/
def scanLoop (margin : Nat) : List Tok → Nat → List Tok → List Tok →
    List Tok → Bool → List Tok × List Tok × Bool
  | [], _, acc, p1, p2, _ => (acc ++ p1, p2, true)
  | t :: rest, col, acc, p1, p2, lnt =>
      let col2 := col + t.1.length
      if t.2 == TKind.normal then
        if margin < col2 then (acc, p1 ++ p2 ++ t :: rest, false)
        else scanLoop margin rest col2 (acc ++ p1 ++ p2 ++ [t]) [] [] true
      else if t.2 == TKind.trailing && lnt then
        scanLoop margin rest col2 (acc ++ p1 ++ p2 ++ [t]) [] [] lnt
      else if t.2 == TKind.space then
        scanLoop margin rest col2 acc p1 (p2 ++ [t]) false
      else
        scanLoop margin rest col2 acc (p1 ++ p2 ++ [t]) [] false

/-- One call of `emitNewline` (lines 42-113), producing the list of
physical lines as token lists (`[]` is the bare newline written for an
empty buffer; `base` is the indent width `indentCount * indentWidth`, so a
line renders with width `base + widthL line`).  The do/while loop is
driven by fuel; the wrapper `emitNewlineM` supplies enough for the whole
buffer, and every line ever produced is covered regardless of fuel. -/
def emitNewlineF (margin base : Nat) : Nat → List Tok → List (List Tok)
  | 0, _ => []
  | Nat.succ fuel, ts =>
      match ts.dropWhile (fun t => t.2 == TKind.space) with
      | [] => [[]]
      | t1 :: rest1 =>
          match mandLoop (t1 :: rest1) false [] [] base with
          | (acc1, pend1, restm, colm) =>
              match scanLoop margin restm colm acc1 [] pend1 false with
              | (line, _, true) => [line]
              | (line, rest2, false) => line :: emitNewlineF margin base fuel rest2

/-- `emitNewline` on a buffer. -/
def emitNewlineM (margin base : Nat) (ts : List Tok) : List (List Tok) :=
  emitNewlineF margin base (ts.length + 1) ts

/-- `flush` (lines 18-22): emit remaining lines only when the buffer is
non-empty. -/
def flushM (margin base : Nat) (ts : List Tok) : List (List Tok) :=
  if ts.isEmpty then [] else emitNewlineM margin base ts

theorem widthL_append (a b : List Tok) : widthL (a ++ b) = widthL a + widthL b := by
  induction a with
  | nil => simp [widthL]
  | cons t r ih => simp [widthL, ih]; omega

theorem normCount_append (a b : List Tok) :
    normCount (a ++ b) = normCount a + normCount b := by
  induction a with
  | nil => simp [normCount]
  | cons t r ih => simp [normCount, ih]; omega

theorem wtln_nonormal (b : List Tok) (hb : normCount b = 0) : wtln b = 0 := by
  induction b with
  | nil => rfl
  | cons t r ih =>
      simp only [normCount] at hb
      have ht : (t.2 == TKind.normal) = false := by
        cases h2 : t.2 == TKind.normal
        · rfl
        · rw [h2] at hb; simp at hb
      have hr : normCount r = 0 := by
        rw [ht] at hb; simpa using hb
      simp [wtln, hr, ht]

theorem wtln_append_nonormal (a b : List Tok) (hb : normCount b = 0) :
    wtln (a ++ b) = wtln a := by
  induction a with
  | nil => simp [wtln, wtln_nonormal b hb]
  | cons t r ih =>
      have hnc : normCount (r ++ b) = normCount r := by
        simp [normCount_append, hb]
      simp only [List.cons_append, wtln, List.append_eq, hnc, ih]

theorem wtln_append_normal (a : List Tok) (t : Tok)
    (ht : t.2 = TKind.normal) : wtln (a ++ [t]) = widthL a + t.1.length := by
  induction a with
  | nil => simp [wtln, normCount, widthL, ht]
  | cons u r ih =>
      have hn : ¬(normCount (r ++ [t]) = 0) := by
        simp [normCount_append, normCount, ht]
      simp only [List.cons_append, wtln, List.append_eq, widthL]
      rw [if_neg hn, ih]
      omega

theorem lastNotSpace_append (a : List Tok) (t : Tok) :
    lastNotSpace (a ++ [t]) = !(t.2 == TKind.space) := by
  induction a with
  | nil => rfl
  | cons u r ih =>
      cases r with
      | nil => simp [lastNotSpace]
      | cons v r2 => simpa [lastNotSpace] using ih

theorem lastNotSpace_append_ne (a b : List Tok) (hb : b ≠ []) :
    lastNotSpace (a ++ b) = lastNotSpace b := by
  induction a with
  | nil => rfl
  | cons u r ih =>
      cases hr : r ++ b with
      | nil => exact absurd (List.append_eq_nil.mp hr).2 hb
      | cons v w =>
          simp only [List.cons_append, hr, lastNotSpace]
          rw [← hr, ih]

theorem mandLoop_inv (B : Nat) : ∀ (ts : List Tok) (g : Bool)
    (acc pend : List Tok) (col : Nat) (acc1 pend1 rest1 : List Tok) (col1 : Nat),
    col = B + (widthL acc + widthL pend) →
    normCount acc ≤ (if g then 1 else 0) →
    normCount pend = 0 →
    lastNotSpace acc = true →
    mandLoop ts g acc pend col = (acc1, pend1, rest1, col1) →
    col1 = B + (widthL acc1 + widthL pend1) ∧ normCount acc1 ≤ 1 ∧
      normCount pend1 = 0 ∧ lastNotSpace acc1 = true := by
  intro ts
  induction ts with
  | nil =>
      intro g acc pend col acc1 pend1 rest1 col1 hcol hna hnp hla hm
      simp only [mandLoop] at hm
      cases hm
      refine ⟨hcol, ?_, hnp, hla⟩
      cases g <;> simp at hna <;> omega
  | cons t rest ih =>
      intro g acc pend col acc1 pend1 rest1 col1 hcol hna hnp hla hm
      simp only [mandLoop] at hm
      by_cases hstop : (g && !(t.2 == TKind.trailing)) = true
      · rw [if_pos hstop] at hm
        cases hm
        refine ⟨hcol, ?_, hnp, hla⟩
        cases g <;> simp at hna <;> omega
      · rw [if_neg hstop] at hm
        by_cases hsp : (t.2 == TKind.space) = true
        · rw [if_pos hsp] at hm
          refine ih g acc (pend ++ [t]) (col + t.1.length) acc1 pend1 rest1 col1
            ?_ hna ?_ hla hm
          · rw [widthL_append]
            simp [widthL]
            omega
          · rw [normCount_append]
            simp only [normCount]
            have hnn : (t.2 == TKind.normal) = false := by
              cases hcase : t.2 == TKind.normal
              · rfl
              · have h1 : t.2 = TKind.normal := by simpa using hcase
                have h2 : t.2 = TKind.space := by simpa using hsp
                rw [h1] at h2
                exact absurd h2 (by decide)
            simp [hnn, hnp]
        · rw [if_neg hsp] at hm
          refine ih (g || (t.2 == TKind.normal)) (acc ++ pend ++ [t]) []
            (col + t.1.length) acc1 pend1 rest1 col1 ?_ ?_ rfl ?_ hm
          · simp [widthL_append, widthL]
            omega
          · have hgt : g = true → (t.2 == TKind.normal) = false := by
              intro hg
              rw [hg] at hstop
              simp at hstop
              rw [hstop]
              decide
            rw [show acc ++ pend ++ [t] = acc ++ (pend ++ [t]) by simp,
              normCount_append, normCount_append]
            simp only [normCount, hnp]
            cases g with
            | false =>
                simp at hna
                cases hn2 : t.2 == TKind.normal <;> simp [hn2, hna]
            | true =>
                rw [hgt rfl]
                simp at hna ⊢
                omega
          · rw [show acc ++ pend ++ [t] = (acc ++ pend) ++ [t] by simp,
              lastNotSpace_append]
            simpa using hsp

theorem scanLoop_inv (margin B : Nat) : ∀ (ts : List Tok) (col : Nat)
    (acc p1 p2 : List Tok) (lnt : Bool) (line rest : List Tok) (done : Bool),
    col = B + (widthL acc + widthL p1 + widthL p2) →
    normCount p1 = 0 → normCount p2 = 0 →
    (normCount acc ≤ 1 ∨ B + wtln acc ≤ margin) →
    lastNotSpace acc = true → lastNotSpace p1 = true →
    scanLoop margin ts col acc p1 p2 lnt = (line, rest, done) →
    (normCount line ≤ 1 ∨ B + wtln line ≤ margin) ∧ lastNotSpace line = true := by
  intro ts
  induction ts with
  | nil =>
      intro col acc p1 p2 lnt line rest done hcol hn1 hn2 hb hla hl1 hs
      simp only [scanLoop] at hs
      cases hs
      constructor
      · rcases hb with h | h
        · left
          rw [normCount_append, hn1]
          omega
        · right
          rwa [wtln_append_nonormal acc p1 hn1]
      · cases hp1 : p1 with
        | nil => simpa using hla
        | cons q qs =>
            rw [hp1] at hl1
            rw [lastNotSpace_append_ne acc (q :: qs) (by simp)]
            exact hl1
  | cons t rest0 ih =>
      intro col acc p1 p2 lnt line rest done hcol hn1 hn2 hb hla hl1 hs
      simp only [scanLoop] at hs
      by_cases hn : (t.2 == TKind.normal) = true
      · rw [if_pos hn] at hs
        by_cases hm : margin < col + t.1.length
        · rw [if_pos hm] at hs
          cases hs
          exact ⟨hb, hla⟩
        · rw [if_neg hm] at hs
          refine ih (col + t.1.length) (acc ++ p1 ++ p2 ++ [t]) [] [] true
            line rest done ?_ rfl rfl ?_ ?_ rfl hs
          · simp [widthL_append, widthL]
            omega
          · right
            rw [show acc ++ p1 ++ p2 ++ [t] = (acc ++ p1 ++ p2) ++ [t] by simp,
              wtln_append_normal _ t (by simpa using hn)]
            simp only [widthL_append] at hcol ⊢
            omega
          · rw [show acc ++ p1 ++ p2 ++ [t] = (acc ++ p1 ++ p2) ++ [t] by simp,
              lastNotSpace_append]
            have : t.2 = TKind.normal := by simpa using hn
            simp [this]
      · rw [if_neg hn] at hs
        by_cases htr : (t.2 == TKind.trailing && lnt) = true
        · rw [if_pos htr] at hs
          refine ih (col + t.1.length) (acc ++ p1 ++ p2 ++ [t]) [] [] lnt
            line rest done ?_ rfl rfl ?_ ?_ rfl hs
          · simp [widthL_append, widthL]
            omega
          · have hnc : normCount (p1 ++ p2 ++ [t]) = 0 := by
              rw [show p1 ++ p2 ++ [t] = p1 ++ (p2 ++ [t]) by simp,
                normCount_append, normCount_append]
              simp only [normCount, hn1, hn2]
              simp [hn]
            rcases hb with h | h
            · left
              rw [show acc ++ p1 ++ p2 ++ [t] = acc ++ (p1 ++ p2 ++ [t]) by simp,
                normCount_append, hnc]
              omega
            · right
              rw [show acc ++ p1 ++ p2 ++ [t] = acc ++ (p1 ++ p2 ++ [t]) by simp,
                wtln_append_nonormal acc _ hnc]
              exact h
          · rw [show acc ++ p1 ++ p2 ++ [t] = (acc ++ p1 ++ p2) ++ [t] by simp,
              lastNotSpace_append]
            have : t.2 = TKind.trailing := by
              cases hcase : t.2 == TKind.trailing
              · rw [hcase] at htr
                simp at htr
              · simpa using hcase
            simp [this]
        · rw [if_neg htr] at hs
          by_cases hsp : (t.2 == TKind.space) = true
          · rw [if_pos hsp] at hs
            refine ih (col + t.1.length) acc p1 (p2 ++ [t]) false
              line rest done ?_ hn1 ?_ hb hla hl1 hs
            · simp [widthL_append, widthL]
              omega
            · rw [normCount_append]
              simp only [normCount, hn2]
              simp [hn]
          · rw [if_neg hsp] at hs
            refine ih (col + t.1.length) acc (p1 ++ p2 ++ [t]) [] false
              line rest done ?_ ?_ rfl hb hla ?_ hs
            · simp [widthL_append, widthL]
              omega
            · rw [show p1 ++ p2 ++ [t] = p1 ++ (p2 ++ [t]) by simp,
                normCount_append, normCount_append]
              simp only [normCount, hn1, hn2]
              simp [hn]
            · rw [show p1 ++ p2 ++ [t] = (p1 ++ p2) ++ [t] by simp,
                lastNotSpace_append]
              simpa using hsp

theorem emitNewlineF_lines (margin base : Nat) : ∀ (fuel : Nat) (ts line : List Tok),
    line ∈ emitNewlineF margin base fuel ts →
    (normCount line ≤ 1 ∨ base + wtln line ≤ margin) ∧ lastNotSpace line = true := by
  intro fuel
  induction fuel with
  | zero =>
      intro ts line h
      simp [emitNewlineF] at h
  | succ fuel ih =>
      intro ts line h
      simp only [emitNewlineF] at h
      cases hdrop : ts.dropWhile (fun t => t.2 == TKind.space) with
      | nil =>
          rw [hdrop] at h
          simp at h
          subst h
          exact ⟨Or.inl (by simp [normCount]), rfl⟩
      | cons t1 r1 =>
          rw [hdrop] at h
          dsimp only at h
          rcases hmand : mandLoop (t1 :: r1) false [] [] base with
            ⟨acc1, pend1, restm, colm⟩
          rw [hmand] at h
          obtain ⟨hcol, hnacc, hnpend, hlast⟩ :=
            mandLoop_inv base (t1 :: r1) false [] [] base acc1 pend1 restm colm
              (by simp [widthL]) (by simp [normCount]) rfl rfl hmand
          rcases hscan : scanLoop margin restm colm acc1 [] pend1 false with
            ⟨lineA, rest2, doneb⟩
          rw [hscan] at h
          have hline :=
            scanLoop_inv margin base restm colm acc1 [] pend1 false lineA rest2 doneb
              (by simp [widthL]; omega) rfl hnpend (Or.inl hnacc) hlast rfl hscan
          cases doneb with
          | true =>
              simp at h
              subst h
              exact hline
          | false =>
              rcases List.mem_cons.mp h with hEq | htail
              · rw [hEq]
                exact hline
              · exact ih rest2 line htail

/-- C7 counterexample: with margin 4 and no indent, the buffer
`[normal "ab", space, normal "c", trailing "ddd"]` is emitted as a single
line of width 7: the trailing token is absorbed after the accepted normal
token `"c"` without a margin check.  The line exceeds the margin yet
contains two normal tokens, so it is not the claimed single-atomic-token
exception. -/
theorem c7_counterexample :
    emitNewlineM 4 0
        [("ab", TKind.normal), (" ", TKind.space), ("c", TKind.normal),
         ("ddd", TKind.trailing)]
      = [[("ab", TKind.normal), (" ", TKind.space), ("c", TKind.normal),
          ("ddd", TKind.trailing)]] ∧
    widthL [("ab", TKind.normal), (" ", TKind.space), ("c", TKind.normal),
        ("ddd", TKind.trailing)] = 7 ∧
    4 < 7 ∧
    normCount [("ab", TKind.normal), (" ", TKind.space), ("c", TKind.normal),
        ("ddd", TKind.trailing)] = 2 :=
  ⟨rfl, rfl, by omega, rfl⟩

/-- C7 amended: a physical line produced by `emitNewline` or `flush` can
exceed the margin not only as a lone oversized atomic token: trailing
tokens absorbed after the last accepted normal token also extend the line
past the margin.  The real guarantee is per line: either the line holds at
most one normal token (the mandatory first unit, emitted whole however
wide), or the width of the line up to and including its last normal token
stays within the margin — anything beyond the margin after that point
consists of absorbed non-normal tokens.  Moreover no line ends in a space
token, so a space alone is never a break point and trailing spaces at a
cut are discarded. -/
theorem c7_margin_discipline (margin base : Nat) (ts line : List Tok)
    (h : line ∈ emitNewlineM margin base ts ∨ line ∈ flushM margin base ts) :
    (normCount line ≤ 1 ∨ base + wtln line ≤ margin) ∧
    lastNotSpace line = true := by
  rcases h with h | h
  · exact emitNewlineF_lines margin base (ts.length + 1) ts line h
  · by_cases he : ts.isEmpty <;> simp [flushM, he] at h
    exact emitNewlineF_lines margin base (ts.length + 1) ts line h

theorem c7_margin_discipline_witness :
    ([("ab", TKind.normal), (" ", TKind.space), ("c", TKind.normal),
        ("ddd", TKind.trailing)]
      ∈ emitNewlineM 4 0
          [("ab", TKind.normal), (" ", TKind.space), ("c", TKind.normal),
           ("ddd", TKind.trailing)] ∨
     [("ab", TKind.normal), (" ", TKind.space), ("c", TKind.normal),
        ("ddd", TKind.trailing)]
      ∈ flushM 4 0
          [("ab", TKind.normal), (" ", TKind.space), ("c", TKind.normal),
           ("ddd", TKind.trailing)]) ∧
    ((normCount [("ab", TKind.normal), (" ", TKind.space), ("c", TKind.normal),
        ("ddd", TKind.trailing)] ≤ 1 ∨
      0 + wtln [("ab", TKind.normal), (" ", TKind.space), ("c", TKind.normal),
        ("ddd", TKind.trailing)] ≤ 4) ∧
     lastNotSpace [("ab", TKind.normal), (" ", TKind.space), ("c", TKind.normal),
        ("ddd", TKind.trailing)] = true) :=
  ⟨Or.inl (by
      rw [show emitNewlineM 4 0
          [("ab", TKind.normal), (" ", TKind.space), ("c", TKind.normal),
           ("ddd", TKind.trailing)]
        = [[("ab", TKind.normal), (" ", TKind.space), ("c", TKind.normal),
            ("ddd", TKind.trailing)]] from rfl]
      exact List.mem_singleton.mpr rfl),
   c7_margin_discipline 4 0 _ _ (Or.inl (by
      rw [show emitNewlineM 4 0
          [("ab", TKind.normal), (" ", TKind.space), ("c", TKind.normal),
           ("ddd", TKind.trailing)]
        = [[("ab", TKind.normal), (" ", TKind.space), ("c", TKind.normal),
            ("ddd", TKind.trailing)]] from rfl]
      exact List.mem_singleton.mpr rfl))⟩

end Estree
